import Mathlib

/-!
Verification of the photoscanner duplicate-detection and resolution engine.

The definitions below are a shallow embedding of the Python sources:
  photoscanner/scanner.py  (feature extraction, the three grouping functions,
                            the scan loop),
  photoscanner/utils.py    (metadata merge),
  photoscanner/gui/resolve_dialog.py (auto-select and the delete handler).

Modelling conventions:
  * Python floats (quality scores, mtimes, cosine similarities) are modelled
    as rationals.
  * Python strings are Lean strings; Python's lexicographic string comparison
    is modelled as the lexicographic order on the underlying character list
    (identical code-point-wise).
  * A perceptual hash is stored by the code as a hex string and always
    consumed through int(h, 16); we model it directly as the parsed natural
    number.
  * Python's list.sort is a stable sort; it is modelled by
    List.insertionSort with the corresponding non-strict key relation
    (stable sorts with the same key agree on the output, so this is exact).
-/

namespace PhotoScanner

/-! ## Data model: ImageRecord (photoscanner/db.py) -/

/-- One entry per scanned file, as persisted by the store.  `phash` holds the
integer value of the hex perceptual-hash string; `embedding` holds the decoded
float32 vector when present. -/
structure ImageRecord where
  path : String
  sha256 : String
  phash : Nat
  width : Nat
  height : Nat
  file_size : Nat
  mtime_ns : Int
  score : ℚ
  embedding : Option (List ℚ)
  faces_json : Option String
  objects_json : Option String
deriving DecidableEq

/-! ## Quality score (scanner.py, image_quality_score) -/

/-- scanner.py line 57: `(resolution / 1_000_000.0) * 10.0
+ (file_size / 1_000_000.0) + (sharpness / 100.0)` where
`resolution = float(width) * float(height)`. -/
def image_quality_score (width height file_size : Nat) (sharpness : ℚ) : ℚ :=
  ((width : ℚ) * (height : ℚ)) / 1000000 * 10 + (file_size : ℚ) / 1000000
    + sharpness / 100

/-- The spec's formula, written exactly as §4.1 states it:
`10 * (width*height / 1_000_000) + (file_size_bytes / 1_000_000)
+ (sharpness / 100)`. -/
def spec_quality_score (width height file_size : Nat) (sharpness : ℚ) : ℚ :=
  10 * (((width : ℚ) * (height : ℚ)) / 1000000) + (file_size : ℚ) / 1000000
    + sharpness / 100

/-! ## Hamming distance (scanner.py, hamming_distance_hex_phash) -/

/-- Binary population count, via the binary digit expansion.  The first
argument is fuel making the recursion structural; `popCount` instantiates it
so that it never runs out. -/
def popCountAux : Nat → Nat → Nat
  | 0, _ => 0
  | fuel + 1, n => if n = 0 then 0 else n % 2 + popCountAux fuel (n / 2)

/-- Number of 1-bits of `n`: models Python's `bin(n).count("1")`. -/
def popCount (n : Nat) : Nat := popCountAux n n

/-- scanner.py line 173: `bin(int(a, 16) ^ int(b, 16)).count("1")`, on the
already-parsed hash values. -/
def hamming_distance_hex_phash (a b : Nat) : Nat := popCount (a ^^^ b)

/-! ## Sort relations.

`list.sort(key=lambda x: x.score, reverse=True)` is the stable descending
sort by score; `groups.sort(key=lambda g: (-len(g), g[0].sha256))` and
`groups.sort(key=lambda g: (-len(g), -g[0].score))` are stable ascending
sorts by the stated key tuples. -/

/-- Key relation of the in-group sort: `a` may precede `b` iff
`b.score ≤ a.score` (descending by score). -/
def scoreGe (a b : ImageRecord) : Prop := b.score ≤ a.score

instance : DecidableRel scoreGe := fun a b =>
  inferInstanceAs (Decidable (b.score ≤ a.score))

instance : IsTotal ImageRecord scoreGe := ⟨fun a b => le_total b.score a.score⟩

instance : IsTrans ImageRecord scoreGe := ⟨fun _ _ _ h₁ h₂ => le_trans h₂ h₁⟩

/-- `cluster.sort(key=lambda x: x.score, reverse=True)`. -/
def sortGroup (g : List ImageRecord) : List ImageRecord :=
  List.insertionSort scoreGe g

/-- `g[0].sha256` (every group the code sorts is non-empty). -/
def headSha (g : List ImageRecord) : String :=
  match g with
  | [] => ""
  | r :: _ => r.sha256

/-- `g[0].score` (every group the code sorts is non-empty). -/
def headScore (g : List ImageRecord) : ℚ :=
  match g with
  | [] => 0
  | r :: _ => r.score

/-- Key relation of `groups.sort(key=lambda g: (-len(g), g[0].sha256))`:
descending size, then ascending sha string. -/
def shaGroupLe (g h : List ImageRecord) : Prop :=
  h.length < g.length ∨ (g.length = h.length ∧ (headSha g).data ≤ (headSha h).data)

instance : DecidableRel shaGroupLe := fun _ _ =>
  inferInstanceAs (Decidable (_ ∨ _))

instance : IsTotal (List ImageRecord) shaGroupLe := by
  constructor
  intro g h
  rcases Nat.lt_trichotomy h.length g.length with hlt | heq | hgt
  · exact Or.inl (Or.inl hlt)
  · rcases le_total (headSha g).data (headSha h).data with hs | hs
    · exact Or.inl (Or.inr ⟨heq.symm, hs⟩)
    · exact Or.inr (Or.inr ⟨heq, hs⟩)
  · exact Or.inr (Or.inl hgt)

instance : IsTrans (List ImageRecord) shaGroupLe := by
  constructor
  intro a b c hab hbc
  rcases hab with hab | ⟨hab, hab'⟩
  · rcases hbc with hbc | ⟨hbc, _⟩
    · exact Or.inl (lt_trans hbc hab)
    · exact Or.inl (hbc ▸ hab)
  · rcases hbc with hbc | ⟨hbc, hbc'⟩
    · exact Or.inl (hab ▸ hbc)
    · exact Or.inr ⟨hab.trans hbc, le_trans hab' hbc'⟩

/-- Key relation of `groups.sort(key=lambda g: (-len(g), -g[0].score))`:
descending size, then descending best-member score. -/
def sizeScoreGroupLe (g h : List ImageRecord) : Prop :=
  h.length < g.length ∨ (g.length = h.length ∧ headScore h ≤ headScore g)

instance : DecidableRel sizeScoreGroupLe := fun _ _ =>
  inferInstanceAs (Decidable (_ ∨ _))

instance : IsTotal (List ImageRecord) sizeScoreGroupLe := by
  constructor
  intro g h
  rcases Nat.lt_trichotomy h.length g.length with hlt | heq | hgt
  · exact Or.inl (Or.inl hlt)
  · rcases le_total (headScore h) (headScore g) with hs | hs
    · exact Or.inl (Or.inr ⟨heq.symm, hs⟩)
    · exact Or.inr (Or.inr ⟨heq, hs⟩)
  · exact Or.inr (Or.inl hgt)

instance : IsTrans (List ImageRecord) sizeScoreGroupLe := by
  constructor
  intro a b c hab hbc
  rcases hab with hab | ⟨hab, hab'⟩
  · rcases hbc with hbc | ⟨hbc, _⟩
    · exact Or.inl (lt_trans hbc hab)
    · exact Or.inl (hbc ▸ hab)
  · rcases hbc with hbc | ⟨hbc, hbc'⟩
    · exact Or.inl (hab ▸ hbc)
    · exact Or.inr ⟨hab.trans hbc, le_trans hbc' hab'⟩

/-! ## Exact grouping (scanner.py, group_duplicates_by_sha256) -/

/-- Keys of a Python dict built by repeated `setdefault`: the distinct
elements of `l` in order of first appearance. -/
def firstKeys (l : List String) : List String :=
  l.foldl (fun ks x => if x ∈ ks then ks else ks ++ [x]) []

/-- The `by_sha` dict of scanner.py lines 179-182, already filtered to
values of size ≥ 2 and internally sorted: for each distinct sha (in first
appearance order) the records carrying it, in input order. -/
def shaGroups (records : List ImageRecord) : List (List ImageRecord) :=
  (firstKeys (records.map (·.sha256))).filterMap (fun k =>
    let v := records.filter (fun r => decide (r.sha256 = k))
    if 1 < v.length then some (sortGroup v) else none)

/-- scanner.py lines 178-185. -/
def group_duplicates_by_sha256 (records : List ImageRecord) :
    List (List ImageRecord) :=
  List.insertionSort shaGroupLe (shaGroups records)

/-! ## Perceptual grouping (scanner.py, group_duplicates_by_phash) -/

/-- `hamming_distance_hex_phash(seed.phash, r.phash) <= threshold`. -/
def phashNear (t : Nat) (seed r : ImageRecord) : Bool :=
  decide (hamming_distance_hex_phash seed.phash r.phash ≤ t)

/-- The `while remaining:` loop of scanner.py lines 193-205.
`remaining.pop()` removes the LAST list element, so the seed of each round is
the last remaining record; the rest (`front`) is scanned in order and split
into the seed's cluster and the records kept for later rounds.  The first
argument is fuel making the recursion structural; one record is consumed per
round, so `records.length` is always enough. -/
def phashLoop (t : Nat) : Nat → List ImageRecord → List (List ImageRecord)
  | _, [] => []
  | 0, _ :: _ => []
  | fuel + 1, r :: rs =>
    let seed := (r :: rs).getLast (List.cons_ne_nil r rs)
    let front := (r :: rs).dropLast
    let cluster := seed :: front.filter (phashNear t seed)
    let keep := front.filter (fun x => !(phashNear t seed x))
    (if 1 < cluster.length then [sortGroup cluster] else []) ++
      phashLoop t fuel keep

/-- scanner.py lines 188-208. -/
def group_duplicates_by_phash (records : List ImageRecord) (threshold : Nat) :
    List (List ImageRecord) :=
  List.insertionSort sizeScoreGroupLe
    (phashLoop threshold records.length records)

/-! ## Semantic grouping (scanner.py, group_duplicates_by_embedding) -/

/-- `np.dot` of two equal-length decoded embedding vectors. -/
def dotp (a b : List ℚ) : ℚ := (List.zipWith (fun x y => x * y) a b).sum

/-- The decoded embedding vector of a record (`np.frombuffer(r.embedding)`);
only ever used on records whose embedding is present. -/
def vecOf (r : ImageRecord) : List ℚ := r.embedding.getD []

/-- `sim_matrix[i, j] >= threshold`. -/
def embNear (t : ℚ) (x r : ImageRecord) : Bool :=
  decide (t ≤ dotp (vecOf x) (vecOf r))

/-- The visited-set loop of scanner.py lines 247-265: `i` runs over records
in index order; an unvisited record opens a cluster and pulls in every later
unvisited record with similarity ≥ threshold.  Records pulled into a cluster
never seed one, which is exactly the recursion below on the not-yet-clustered
suffix.  Fuel as in `phashLoop`. -/
def embLoop (t : ℚ) : Nat → List ImageRecord → List (List ImageRecord)
  | _, [] => []
  | 0, _ :: _ => []
  | fuel + 1, x :: xs =>
    let cluster := x :: xs.filter (embNear t x)
    let keep := xs.filter (fun r => !(embNear t x r))
    (if 1 < cluster.length then [sortGroup cluster] else []) ++
      embLoop t fuel keep

/-- scanner.py lines 211-268.  Records without an embedding are filtered out
first; the empty-input early return is subsumed (the loop yields `[]`). -/
def group_duplicates_by_embedding (records : List ImageRecord)
    (threshold : ℚ) : List (List ImageRecord) :=
  let valid := records.filter (fun r => r.embedding.isSome)
  List.insertionSort sizeScoreGroupLe (embLoop threshold valid.length valid)

/-! ## Scan loop (scanner.py, scan_folders) -/

/-- What happens when `scan_folders` processes one file.  The whole per-file
body — stat, decode, hashing, `db.upsert_image`, the every-100-records
`db.commit()` and the progress callback — sits inside one
`try: ... except Exception:` block. -/
inductive FileBehavior where
  /-- stat/decode/hashing succeed and the store's upsert succeeds. -/
  | extractOk
  /-- stat, open, decode or hashing raises (unreadable or corrupt file). -/
  | extractRaises
  /-- extraction succeeds but the store raises from `db.upsert_image`. -/
  | upsertRaises
  /-- extraction and upsert succeed, but the store would raise from a
  `db.commit()` issued at this point (only triggered when
  `indexed % 100 == 0`). -/
  | commitRaises
deriving DecidableEq

/-- One file yielded by `iter_image_files`, with the behaviour the
filesystem and the store exhibit for it. -/
structure ScanFile where
  path : String
  behavior : FileBehavior
deriving DecidableEq

structure ScanResult where
  scanned : Nat
  indexed : Nat
  skipped : Nat
deriving DecidableEq

/-- One `progress_cb(scanned, indexed, skipped, str(path))` invocation. -/
structure ScanProgress where
  scanned : Nat
  indexed : Nat
  skipped : Nat
  last_path : String
deriving DecidableEq

structure ScanState where
  scanned : Nat
  indexed : Nat
  skipped : Nat
  progress : List ScanProgress
deriving DecidableEq

/-- The body of the `for path in iter_image_files(folders):` loop
(scanner.py lines 109-167).  `scanned += 1` happens first; any exception in
the rest of the `try` block is swallowed by `except Exception`, which counts
the file as skipped and still fires the progress callback. -/
def scanStep (st : ScanState) (f : ScanFile) : ScanState :=
  let scanned := st.scanned + 1
  match f.behavior with
  | .extractRaises =>
    ⟨scanned, st.indexed, st.skipped + 1,
      st.progress ++ [⟨scanned, st.indexed, st.skipped + 1, f.path⟩]⟩
  | .upsertRaises =>
    ⟨scanned, st.indexed, st.skipped + 1,
      st.progress ++ [⟨scanned, st.indexed, st.skipped + 1, f.path⟩]⟩
  | .extractOk =>
    ⟨scanned, st.indexed + 1, st.skipped,
      st.progress ++ [⟨scanned, st.indexed + 1, st.skipped, f.path⟩]⟩
  | .commitRaises =>
    if (st.indexed + 1) % 100 = 0 then
      -- the record was already indexed when the batch commit raised; the
      -- except handler then also counts the file as skipped
      ⟨scanned, st.indexed + 1, st.skipped + 1,
        st.progress ++ [⟨scanned, st.indexed + 1, st.skipped + 1, f.path⟩]⟩
    else
      ⟨scanned, st.indexed + 1, st.skipped,
        st.progress ++ [⟨scanned, st.indexed + 1, st.skipped, f.path⟩]⟩

/-- scanner.py lines 96-170.  The final `db.commit()` sits OUTSIDE the
per-file try/except, so its failure propagates to the caller; that store
disposition is the `finalCommitOk` flag.  The returned pair is (what the
caller gets, the full progress-callback trace). -/
def scan_folders (files : List ScanFile) (finalCommitOk : Bool) :
    Except Unit ScanResult × List ScanProgress :=
  let st := files.foldl scanStep ⟨0, 0, 0, []⟩
  (if finalCommitOk then .ok ⟨st.scanned, st.indexed, st.skipped⟩
   else .error (), st.progress)

/-! ## Auto-select (resolve_dialog.py, _run_auto_select) -/

/-- The per-file stats gathered at resolve_dialog.py lines 305-312:
`{"path": path_str, "mtime": stat.st_mtime, "size": stat.st_size,
"depth": len(p.parts)}`.  Files whose `stat` raises are dropped before this
point, so a `Candidate` always carries its stats. -/
structure Candidate where
  path : String
  mtime : ℚ
  size : Nat
  depth : Nat
deriving DecidableEq

/-- resolve_dialog.py line 327: `abs(c['mtime'] - min_mtime) < 1.0`. -/
def mtimeNear (a m : ℚ) : Prop := |a - m| < 1

/-- Cross-multiplied form of `a < b + 1`, used to decide rational
comparisons by integer arithmetic alone. -/
theorem rat_lt_add_one_iff (a b : ℚ) :
    a < b + 1 ↔ a.num * b.den < b.num * a.den + a.den * b.den := by
  have ha : (0 : ℚ) < (a.den : ℚ) := by exact_mod_cast a.den_pos
  have hb : (0 : ℚ) < (b.den : ℚ) := by exact_mod_cast b.den_pos
  conv_lhs => rw [← Rat.num_div_den a, ← Rat.num_div_den b]
  rw [div_add' _ _ _ hb.ne', div_lt_div_iff₀ ha hb]
  constructor
  · intro h
    have h2 : (↑(a.num * b.den) : ℚ) < (↑(b.num * a.den + a.den * b.den) : ℚ) := by
      push_cast
      linarith
    exact_mod_cast h2
  · intro h
    have h2 : (↑(a.num * b.den) : ℚ) < (↑(b.num * a.den + a.den * b.den) : ℚ) := by
      exact_mod_cast h
    push_cast at h2
    linarith

theorem mtimeNear_iff (a m : ℚ) :
    mtimeNear a m ↔
      a.num * m.den < m.num * a.den + a.den * m.den ∧
        m.num * a.den < a.num * m.den + m.den * a.den := by
  unfold mtimeNear
  rw [abs_sub_lt_iff, sub_lt_iff_lt_add, sub_lt_iff_lt_add,
    add_comm (1 : ℚ) m, add_comm (1 : ℚ) a,
    rat_lt_add_one_iff, rat_lt_add_one_iff]

instance (a m : ℚ) : Decidable (mtimeNear a m) :=
  decidable_of_iff _ (mtimeNear_iff a m).symm

/-- `min(c['mtime'] for c in candidates)` (only used on non-empty lists). -/
def minMtime : List Candidate → ℚ
  | [] => 0
  | c :: rest => rest.foldl (fun a x => min a x.mtime) c.mtime

/-- `max(c['size'] for c in candidates)` (only used on non-empty lists). -/
def maxSize : List Candidate → Nat
  | [] => 0
  | c :: rest => rest.foldl (fun a x => max a x.size) c.size

/-- `max(c['depth'] for c in candidates)` (only used on non-empty lists). -/
def maxDepth : List Candidate → Nat
  | [] => 0
  | c :: rest => rest.foldl (fun a x => max a x.depth) c.depth

/-- Membership in the PreferOlder winning subset (lines 325-327). -/
def winOlder (cs : List Candidate) (c : Candidate) : Bool :=
  decide (mtimeNear c.mtime (minMtime cs))

/-- Membership in the PreferLarger winning subset (lines 334-335). -/
def winLarger (cs : List Candidate) (c : Candidate) : Bool :=
  decide (c.size = maxSize cs)

/-- Membership in the PreferDeeper winning subset (lines 342-343). -/
def winDeeper (cs : List Candidate) (c : Candidate) : Bool :=
  decide (c.depth = maxDepth cs)

/-- Keys of the `scores` dict (`{c['path']: 0 for c in candidates}`):
distinct paths in first-appearance order. -/
def pathKeys (cs : List Candidate) : List String :=
  cs.foldl (fun ks c => if c.path ∈ ks then ks else ks ++ [c.path]) []

/-- How often `scores[p] += 1` fires for one enabled criterion: once per
winner candidate whose path is `p`. -/
def critCount (cs : List Candidate) (win : Candidate → Bool) (p : String) : Nat :=
  (cs.filter (fun c => decide (c.path = p) && win c)).length

/-- Final value of `scores[p]` across the enabled criteria. -/
def scoreOf (older larger deeper : Bool) (cs : List Candidate) (p : String) : Nat :=
  (if older then critCount cs (winOlder cs) p else 0) +
    (if larger then critCount cs (winLarger cs) p else 0) +
    (if deeper then critCount cs (winDeeper cs) p else 0)

/-- resolve_dialog.py lines 289-361, as a function from the gathered
candidate stats and the three checkbox states to the auto-selected path.
The early `return`s (empty group, no active criteria) and `_select_none()`
both leave no auto-selection, i.e. `none`. -/
def _run_auto_select (older larger deeper : Bool) (cs : List Candidate) :
    Option String :=
  if cs.isEmpty then none
  else if (if older then 1 else 0) + (if larger then 1 else 0) +
      (if deeper then 1 else 0) = 0 then none
  else if ((pathKeys cs).map (scoreOf older larger deeper cs)).foldl max 0 = 0
    then none
  else
    match (pathKeys cs).filter (fun p =>
        decide (scoreOf older larger deeper cs p =
          ((pathKeys cs).map (scoreOf older larger deeper cs)).foldl max 0)) with
    | [p] => some p
    | _ => none

/-! ## Delete handler (resolve_dialog.py, _on_delete) -/

/-- A file of the current duplicate group as the dialog sees it on disk:
its path, whether `os.path.exists` succeeds, and the dimensions `QPixmap`
reports (a missing or unreadable file reports 0 x 0). -/
structure FsFile where
  path : String
  onDisk : Bool
  width : Nat
  height : Nat
deriving DecidableEq

/-- Observable side effects of one `_on_delete` invocation, in order. -/
inductive DeleteEvent where
  /-- `merge_image_metadata(to_delete, self._selected_path)`. -/
  | merged (sources : List String) (target : String)
  /-- `os.remove(p)`. -/
  | fsRemove (p : String)
  /-- `db.delete_image(p)`. -/
  | dbDelete (p : String)
  /-- the `QMessageBox.critical(self, "Deletion Blocked", msg)` dialog; the
  message names the offending candidate and carries both resolutions. -/
  | blocked (offender : String) (candWidth candHeight keptWidth keptHeight : Nat)
deriving DecidableEq

/-- Look a path up among the group's files. -/
def findFile (group : List FsFile) (p : String) : Option FsFile :=
  group.find? (fun f => decide (f.path = p))

/-- The dimensions `QPixmap(p)` reports for a group member. -/
def pixmapDims (group : List FsFile) (p : String) : Nat × Nat :=
  match findFile group p with
  | some f => if f.onDisk then (f.width, f.height) else (0, 0)
  | none => (0, 0)

/-- `os.path.exists(p)` for a group member. -/
def onDiskB (group : List FsFile) (p : String) : Bool :=
  match findFile group p with
  | some f => f.onDisk
  | none => false

/-- The safety loop of resolve_dialog.py lines 489-501: the first candidate,
in `to_delete` order, that exists on disk and whose pixel area strictly
exceeds the kept image's. -/
def findBlocker (group : List FsFile) (selArea : Nat) (to_delete : List String) :
    Option FsFile :=
  to_delete.findSome? (fun p =>
    match findFile group p with
    | some f => if f.onDisk && decide (selArea < f.width * f.height) then some f else none
    | none => none)

/-- `[p for p in paths if p != self._selected_path]`. -/
def toDelete (group : List FsFile) (selected : String) : List String :=
  (group.map (·.path)).filter (fun p => decide (p ≠ selected))

/-- resolve_dialog.py lines 467-546, as the list of observable events.
`confirmed` is true when the confirm-delete dialog is disabled or answered
Yes.  The resolution safety check runs before anything else; when it trips,
the handler shows the blocked message and returns without merging or
deleting.  Otherwise metadata is merged first, then each candidate is
removed from disk (when present) and from the store. -/
def _on_delete (group : List FsFile) (selected : String) (confirmed : Bool) :
    List DeleteEvent :=
  let ds := toDelete group selected
  let sel := pixmapDims group selected
  match findBlocker group (sel.1 * sel.2) ds with
  | some f => [.blocked f.path f.width f.height sel.1 sel.2]
  | none =>
    if confirmed then
      .merged ds selected ::
        ds.flatMap (fun p =>
          (if onDiskB group p then [DeleteEvent.fsRemove p] else []) ++
            [DeleteEvent.dbDelete p])
    else []

/-! ## Metadata merge (utils.py, merge_image_metadata) -/

/-- One pyexiv2 metadata dictionary (Exif, IPTC or XMP), as a key-value
association list; lookup takes the first matching key, like a Python dict
read. -/
abbrev Meta := List (String × String)

/-- `k in d` for a metadata dict. -/
def dictContains (m : Meta) (k : String) : Bool :=
  m.any (fun kv => decide (kv.1 = k))

/-- `d.get(k)` for a metadata dict. -/
def dictLookup (m : Meta) (k : String) : Option String :=
  (m.find? (fun kv => decide (kv.1 = k))).map (·.2)

/-- The inner `for k, v in src.items():` loop of utils.py lines 95-110: a
pair is added to the pending-new dict iff its key is neither on the target
nor already pending. -/
def addNewKeys (target : Meta) (acc : Meta) (src : Meta) : Meta :=
  src.foldl (fun a kv =>
    if dictContains target kv.1 || dictContains a kv.1 then a else a ++ [kv]) acc

/-- The outer `for src_path in source_paths:` loop, for one of the three
namespaces: fold all sources, first candidate winning. -/
def newKeys (target : Meta) (sources : List Meta) : Meta :=
  sources.foldl (addNewKeys target) []

/-- Final metadata of the target for one namespace: its own dict updated
with the pending-new dict (whose keys are disjoint from the target's). -/
def mergeDict (sources : List Meta) (target : Meta) : Meta :=
  target ++ newKeys target sources

/-- The three metadata namespaces pyexiv2 reads/writes for one file. -/
structure FileMeta where
  exif : Meta
  iptc : Meta
  xmp : Meta
deriving DecidableEq

/-- utils.py lines 70-120: merge each namespace independently, sources in
candidate order.  (Sources whose read raises are skipped by the inner
`except: continue`; the argument list holds the successfully read ones.) -/
def merge_image_metadata (sources : List FileMeta) (target : FileMeta) :
    FileMeta :=
  ⟨mergeDict (sources.map (·.exif)) target.exif,
    mergeDict (sources.map (·.iptc)) target.iptc,
    mergeDict (sources.map (·.xmp)) target.xmp⟩

/-! ## Claim C9: the quality-score formula -/

/-- C9: for every width, height, file size and sharpness value, the quality
score computed by `image_quality_score` equals exactly
`10 * (width*height / 1_000_000) + (file_size_bytes / 1_000_000)
+ (sharpness / 100)`.  The function is a pure Lean function of its four
arguments, hence deterministic and side-effect-free. -/
theorem c9_quality_score_formula (width height file_size : Nat) (sharpness : ℚ) :
    image_quality_score width height file_size sharpness =
      spec_quality_score width height file_size sharpness := by
  unfold image_quality_score spec_quality_score
  ring

/-! ## Scan-loop lemmas -/

theorem foldl_scanStep_invariant (files : List ScanFile) (st : ScanState)
    (hst : st.scanned = st.indexed + st.skipped)
    (hpr : ∀ p ∈ st.progress, p.scanned = p.indexed + p.skipped)
    (hb : ∀ f ∈ files, f.behavior ≠ FileBehavior.commitRaises) :
    (files.foldl scanStep st).scanned =
        (files.foldl scanStep st).indexed + (files.foldl scanStep st).skipped ∧
      ∀ p ∈ (files.foldl scanStep st).progress,
        p.scanned = p.indexed + p.skipped := by
  induction files generalizing st with
  | nil => exact ⟨hst, hpr⟩
  | cons f fs ih =>
    have hf := hb f (by simp)
    have hrest : ∀ g ∈ fs, g.behavior ≠ FileBehavior.commitRaises := fun g hg =>
      hb g (by simp [hg])
    simp only [List.foldl_cons]
    apply ih _ ?_ ?_ hrest
    · cases hfb : f.behavior with
      | extractOk => simp [scanStep, hfb]; omega
      | extractRaises => simp [scanStep, hfb]; omega
      | upsertRaises => simp [scanStep, hfb]; omega
      | commitRaises => exact absurd hfb hf
    · intro p hp
      cases hfb : f.behavior with
      | extractOk =>
        simp [scanStep, hfb] at hp
        rcases hp with hp | hp
        · exact hpr p hp
        · subst hp; simp; omega
      | extractRaises =>
        simp [scanStep, hfb] at hp
        rcases hp with hp | hp
        · exact hpr p hp
        · subst hp; simp; omega
      | upsertRaises =>
        simp [scanStep, hfb] at hp
        rcases hp with hp | hp
        · exact hpr p hp
        · subst hp; simp; omega
      | commitRaises => exact absurd hfb hf

theorem foldl_scanStep_counts (files : List ScanFile) (st : ScanState)
    (hb : ∀ f ∈ files, f.behavior ≠ FileBehavior.commitRaises) :
    (files.foldl scanStep st).scanned = st.scanned + files.length ∧
      (files.foldl scanStep st).indexed = st.indexed +
        files.countP (fun f => decide (f.behavior = FileBehavior.extractOk)) ∧
      (files.foldl scanStep st).skipped = st.skipped +
        files.countP (fun f => decide (f.behavior = FileBehavior.extractRaises)) +
        files.countP (fun f => decide (f.behavior = FileBehavior.upsertRaises)) := by
  induction files generalizing st with
  | nil => simp
  | cons f fs ih =>
    have hf := hb f (by simp)
    have hrest : ∀ g ∈ fs, g.behavior ≠ FileBehavior.commitRaises := fun g hg =>
      hb g (by simp [hg])
    obtain ⟨h1, h2, h3⟩ := ih (scanStep st f) hrest
    simp only [List.foldl_cons]
    cases hfb : f.behavior with
    | commitRaises => exact absurd hfb hf
    | extractOk =>
      refine ⟨?_, ?_, ?_⟩ <;>
        [rw [h1]; rw [h2]; rw [h3]] <;>
        simp [scanStep, hfb, List.countP_cons] <;> omega
    | extractRaises =>
      refine ⟨?_, ?_, ?_⟩ <;>
        [rw [h1]; rw [h2]; rw [h3]] <;>
        simp [scanStep, hfb, List.countP_cons] <;> omega
    | upsertRaises =>
      refine ⟨?_, ?_, ?_⟩ <;>
        [rw [h1]; rw [h2]; rw [h3]] <;>
        simp [scanStep, hfb, List.countP_cons] <;> omega

/-! ## Claim C6 (corrected): store failures during the loop are absorbed -/

/-- C6 counterexample: a scan over two files where the store's
`upsert_image` raises on the second.  The claim says a persistence failure
while writing a record propagates and aborts the scan; in fact the per-file
`except Exception` handler absorbs it, counts the file as skipped, continues,
and the scan completes normally with `ScanResult(scanned=2, indexed=1,
skipped=1)`. -/
theorem c6_store_failure_absorbed_counterexample :
    (scan_folders [⟨"a.jpg", .extractOk⟩, ⟨"b.jpg", .upsertRaises⟩] true).1 =
        Except.ok ⟨2, 1, 1⟩ ∧
      (scan_folders [⟨"a.jpg", .extractOk⟩, ⟨"b.jpg", .upsertRaises⟩] true).2 =
        [⟨1, 1, 0, "a.jpg"⟩, ⟨2, 1, 1, "b.jpg"⟩] :=
  ⟨rfl, rfl⟩

/-- C6 amended: a store failure while writing a record (`db.upsert_image`)
is caught by the same per-file handler as extraction problems — the file is
counted as skipped and the scan continues to completion — while only a
failure of the final `db.commit()` (which sits outside the loop) propagates
to the caller.  Stated for scans in which the store does not fail a
mid-loop batch commit. -/
theorem c6_per_file_errors_absorbed_final_commit_propagates
    (files : List ScanFile)
    (hb : ∀ f ∈ files, f.behavior ≠ FileBehavior.commitRaises) :
    (scan_folders files true).1 = Except.ok
        ⟨files.length,
          files.countP (fun f => decide (f.behavior = FileBehavior.extractOk)),
          files.countP (fun f => decide (f.behavior = FileBehavior.extractRaises)) +
            files.countP (fun f => decide (f.behavior = FileBehavior.upsertRaises))⟩ ∧
      (scan_folders files false).1 = Except.error () := by
  obtain ⟨h1, h2, h3⟩ := foldl_scanStep_counts files ⟨0, 0, 0, []⟩ hb
  constructor
  · simp only [scan_folders, if_true]
    simp [h1, h2, h3]
    try omega
  · simp [scan_folders]

/-- C6 amended, instantiated: the witness scan mixes a success, an
extraction failure and a store write failure. -/
theorem c6_per_file_errors_absorbed_witness :
    (∀ f ∈ ([⟨"a.jpg", .extractOk⟩, ⟨"b.jpg", .upsertRaises⟩,
        ⟨"c.jpg", .extractRaises⟩] : List ScanFile),
      f.behavior ≠ FileBehavior.commitRaises) ∧
      (scan_folders [⟨"a.jpg", .extractOk⟩, ⟨"b.jpg", .upsertRaises⟩,
          ⟨"c.jpg", .extractRaises⟩] true).1 = Except.ok ⟨3, 1, 2⟩ ∧
      (scan_folders [⟨"a.jpg", .extractOk⟩, ⟨"b.jpg", .upsertRaises⟩,
          ⟨"c.jpg", .extractRaises⟩] false).1 = Except.error () := by
  refine ⟨by decide, ?_⟩
  have h := c6_per_file_errors_absorbed_final_commit_propagates
    [⟨"a.jpg", .extractOk⟩, ⟨"b.jpg", .upsertRaises⟩, ⟨"c.jpg", .extractRaises⟩]
    (by decide)
  exact ⟨h.1, h.2⟩

/-! ## Claim C10 (corrected): the scanned = indexed + skipped invariant -/

/-- Input of the C10 counterexample: 99 clean files followed by one for
which the 100-record batch `db.commit()` raises. -/
def c10files : List ScanFile :=
  List.replicate 99 ⟨"a.jpg", .extractOk⟩ ++ [⟨"b.jpg", .commitRaises⟩]

set_option maxRecDepth 8000 in
/-- C10 counterexample: on the 100th indexed file the batch commit fires
inside the `try` block; if the store raises there, the file has already been
counted as indexed and the handler counts it again as skipped, so the
progress callback and the final result report scanned=100, indexed=100,
skipped=1 — violating scanned = indexed + skipped. -/
theorem c10_counter_invariant_counterexample :
    (scan_folders c10files true).2.getLast? = some ⟨100, 100, 1, "b.jpg"⟩ ∧
      (scan_folders c10files true).1 = Except.ok ⟨100, 100, 1⟩ ∧
      (100 : Nat) ≠ 100 + 1 :=
  ⟨rfl, rfl, by decide⟩

/-- C10 amended: provided no mid-loop batch commit fails, every progress
callback sees scanned = indexed + skipped and the final ScanResult satisfies
it too: each processed file increments scanned exactly once and then exactly
one of indexed or skipped before its progress callback fires.  (A failing
batch commit after the 100th indexed record breaks the identity, as the
counterexample shows.) -/
theorem c10_counter_invariant (files : List ScanFile) (finalCommitOk : Bool)
    (hb : ∀ f ∈ files, f.behavior ≠ FileBehavior.commitRaises) :
    (∀ p ∈ (scan_folders files finalCommitOk).2,
        p.scanned = p.indexed + p.skipped) ∧
      ∀ r, (scan_folders files finalCommitOk).1 = Except.ok r →
        r.scanned = r.indexed + r.skipped := by
  obtain ⟨h1, h2⟩ := foldl_scanStep_invariant files ⟨0, 0, 0, []⟩ (by simp)
    (by simp) hb
  constructor
  · intro p hp
    exact h2 p hp
  · intro r hr
    simp only [scan_folders] at hr
    cases finalCommitOk with
    | false => simp at hr
    | true =>
      simp at hr
      subst hr
      exact h1

/-- C10 amended, instantiated at a two-file scan with one skipped file. -/
theorem c10_counter_invariant_witness :
    (∀ f ∈ ([⟨"a.jpg", .extractOk⟩, ⟨"b.jpg", .extractRaises⟩] : List ScanFile),
        f.behavior ≠ FileBehavior.commitRaises) ∧
      (∀ p ∈ (scan_folders [⟨"a.jpg", .extractOk⟩, ⟨"b.jpg", .extractRaises⟩] true).2,
        p.scanned = p.indexed + p.skipped) ∧
      ∀ r, (scan_folders [⟨"a.jpg", .extractOk⟩,
          ⟨"b.jpg", .extractRaises⟩] true).1 = Except.ok r →
        r.scanned = r.indexed + r.skipped := by
  refine ⟨by decide, ?_⟩
  exact c10_counter_invariant
    [⟨"a.jpg", .extractOk⟩, ⟨"b.jpg", .extractRaises⟩] true (by decide)

/-! ## findSome? helper lemmas -/

theorem exists_of_findSome?_some {α β : Type} (f : α → Option β) :
    ∀ (l : List α) (b : β), l.findSome? f = some b → ∃ x ∈ l, f x = some b := by
  intro l
  induction l with
  | nil => intro b h; simp [List.findSome?] at h
  | cons x xs ih =>
    intro b h
    rw [List.findSome?_cons] at h
    cases hx : f x with
    | some v =>
      rw [hx] at h
      simp only [] at h
      exact ⟨x, by simp, by rw [hx]; exact h⟩
    | none =>
      rw [hx] at h
      simp only [] at h
      obtain ⟨y, hy, hfy⟩ := ih b h
      exact ⟨y, by simp [hy], hfy⟩

theorem findSome?_ne_none_of_mem {α β : Type} (f : α → Option β) (l : List α)
    (a : α) (b : β) (ha : a ∈ l) (hb : f a = some b) :
    l.findSome? f ≠ none := by
  induction l with
  | nil => simp at ha
  | cons x xs ih =>
    rw [List.findSome?_cons]
    rcases List.mem_cons.mp ha with rfl | ha'
    · rw [hb]; simp
    · cases hx : f x with
      | some v => simp
      | none => exact ih ha'

/-! ## Lookup of a group member by path -/

theorem findFile_eq_of_mem (group : List FsFile) (f : FsFile)
    (hnd : (group.map FsFile.path).Nodup) (hf : f ∈ group) :
    findFile group f.path = some f := by
  induction group with
  | nil => simp at hf
  | cons g gs ih =>
    simp only [List.map_cons, List.nodup_cons] at hnd
    rcases List.mem_cons.mp hf with rfl | hf'
    · simp [findFile]
    · by_cases hp : g.path = f.path
      · exact absurd (hp ▸ List.mem_map_of_mem FsFile.path hf') hnd.1
      · show List.find? (fun x => decide (x.path = f.path)) (g :: gs) = some f
        rw [List.find?_cons_of_neg _ (by simp [hp])]
        exact ih hnd.2 hf'

/-! ## Claim C1: larger candidates block deletion -/

/-- C1: whenever some deletion candidate exists on disk with a strictly
larger pixel area than what the kept image reports, `_on_delete` emits only
the `Deletion Blocked` message — naming an offending file together with both
resolutions — and deletes nothing: no file is removed from disk and no
record is removed from the store, for any group composition and any
confirmation setting, independent of any score. -/
theorem c1_larger_candidate_blocks_deletion (group : List FsFile)
    (selected : String) (confirmed : Bool)
    (hnd : (group.map FsFile.path).Nodup)
    (hex : ∃ f ∈ group, f.path ≠ selected ∧ f.onDisk = true ∧
      (pixmapDims group selected).1 * (pixmapDims group selected).2 <
        f.width * f.height) :
    (∃ off cw ch,
        _on_delete group selected confirmed =
          [DeleteEvent.blocked off cw ch (pixmapDims group selected).1
            (pixmapDims group selected).2] ∧
        ∃ g ∈ group, g.path = off ∧ g.onDisk = true ∧ g.width = cw ∧
          g.height = ch ∧
          (pixmapDims group selected).1 * (pixmapDims group selected).2 <
            cw * ch) ∧
      (∀ p, DeleteEvent.fsRemove p ∉ _on_delete group selected confirmed) ∧
      (∀ p, DeleteEvent.dbDelete p ∉ _on_delete group selected confirmed) := by
  obtain ⟨f, hf, hfsel, hdisk, harea⟩ := hex
  have hmem : f.path ∈ toDelete group selected := by
    unfold toDelete
    rw [List.mem_filter]
    exact ⟨List.mem_map_of_mem FsFile.path hf, by simp [hfsel]⟩
  have hstep : (match findFile group f.path with
      | some g =>
        if g.onDisk && decide ((pixmapDims group selected).1 *
            (pixmapDims group selected).2 < g.width * g.height)
          then some g else none
      | none => none) = some f := by
    rw [findFile_eq_of_mem group f hnd hf]
    simp only []
    rw [if_pos (by simp [hdisk, harea])]
  have hne : findBlocker group
      ((pixmapDims group selected).1 * (pixmapDims group selected).2)
      (toDelete group selected) ≠ none :=
    findSome?_ne_none_of_mem _ _ f.path f hmem hstep
  obtain ⟨b, hb⟩ := Option.ne_none_iff_exists'.mp hne
  obtain ⟨p, hpmem, hpb⟩ := exists_of_findSome?_some _ _ b hb
  have hpb' : (match findFile group p with
      | some g =>
        if g.onDisk && decide ((pixmapDims group selected).1 *
            (pixmapDims group selected).2 < g.width * g.height)
          then some g else none
      | none => none) = some b := hpb
  have hbprops : b ∈ group ∧ b.onDisk = true ∧
      (pixmapDims group selected).1 * (pixmapDims group selected).2 <
        b.width * b.height := by
    cases hff : findFile group p with
    | none => rw [hff] at hpb'; simp at hpb'
    | some g =>
      rw [hff] at hpb'
      simp only [] at hpb'
      by_cases hcond : (g.onDisk && decide ((pixmapDims group selected).1 *
          (pixmapDims group selected).2 < g.width * g.height)) = true
      · rw [if_pos hcond] at hpb'
        have hgb : g = b := by injection hpb'
        subst hgb
        simp only [Bool.and_eq_true, decide_eq_true_eq] at hcond
        exact ⟨List.mem_of_find?_eq_some hff, hcond.1, hcond.2⟩
      · rw [if_neg hcond] at hpb'
        simp at hpb'
  have htrace : _on_delete group selected confirmed =
      [DeleteEvent.blocked b.path b.width b.height
        (pixmapDims group selected).1 (pixmapDims group selected).2] := by
    simp only [_on_delete]
    rw [hb]
  refine ⟨⟨b.path, b.width, b.height, htrace,
    b, hbprops.1, rfl, hbprops.2.1, rfl, rfl, hbprops.2.2⟩, ?_, ?_⟩
  · intro p'
    rw [htrace]
    simp
  · intro p'
    rw [htrace]
    simp

/-- The concrete group of the C1 witness. -/
def c1group : List FsFile :=
  [⟨"keep.jpg", true, 100, 100⟩, ⟨"big.jpg", true, 200, 200⟩]

/-- C1 instantiated: keeping the 100x100 copy while a 200x200 copy is a
deletion candidate is blocked and deletes nothing. -/
theorem c1_larger_candidate_blocks_deletion_witness :
    ((c1group.map FsFile.path).Nodup ∧
      ∃ f ∈ c1group, f.path ≠ "keep.jpg" ∧ f.onDisk = true ∧
        (pixmapDims c1group ("keep.jpg")).1 * (pixmapDims c1group ("keep.jpg")).2 <
          f.width * f.height) ∧
    ((∃ off cw ch,
        _on_delete c1group ("keep.jpg") true =
          [DeleteEvent.blocked off cw ch (pixmapDims c1group ("keep.jpg")).1
            (pixmapDims c1group ("keep.jpg")).2] ∧
        ∃ g ∈ c1group, g.path = off ∧ g.onDisk = true ∧ g.width = cw ∧
          g.height = ch ∧
          (pixmapDims c1group ("keep.jpg")).1 * (pixmapDims c1group ("keep.jpg")).2 <
            cw * ch) ∧
      (∀ p, DeleteEvent.fsRemove p ∉ _on_delete c1group ("keep.jpg") true) ∧
      (∀ p, DeleteEvent.dbDelete p ∉ _on_delete c1group ("keep.jpg") true)) :=
  ⟨⟨by decide, by decide⟩,
    c1_larger_candidate_blocks_deletion c1group ("keep.jpg") true
      (by decide) (by decide)⟩

/-! ## Metadata dictionary lemmas -/

theorem dictLookup_append (a b : Meta) (k : String) :
    dictLookup (a ++ b) k = (dictLookup a k).or (dictLookup b k) := by
  unfold dictLookup
  rw [List.find?_append]
  cases List.find? (fun kv => decide (kv.1 = k)) a <;> simp

theorem dictContains_iff_isSome (m : Meta) (k : String) :
    dictContains m k = true ↔ (dictLookup m k).isSome := by
  unfold dictContains dictLookup
  rw [List.any_eq_true]
  cases hf : List.find? (fun kv => decide (kv.1 = k)) m with
  | none =>
    simp only [hf, Option.map_none']
    constructor
    · rintro ⟨x, hx, hpx⟩
      exact absurd hpx (by simpa using List.find?_eq_none.mp hf x hx)
    · intro h
      simp at h
  | some kv =>
    simp only [hf, Option.map_some']
    constructor
    · intro _
      simp
    · intro _
      refine ⟨kv, List.mem_of_find?_eq_some hf, ?_⟩
      have h2 := List.find?_some hf
      simpa using h2

theorem dictLookup_nil (k : String) : dictLookup ([] : Meta) k = none := rfl

theorem dictLookup_cons_self (kv : String × String) (rest : Meta) (k : String)
    (h : kv.1 = k) : dictLookup (kv :: rest) k = some kv.2 := by
  unfold dictLookup
  rw [List.find?_cons_of_pos _ (by simp [h])]
  rfl

theorem dictLookup_cons_ne (kv : String × String) (rest : Meta) (k : String)
    (h : kv.1 ≠ k) : dictLookup (kv :: rest) k = dictLookup rest k := by
  unfold dictLookup
  rw [List.find?_cons_of_neg _ (by simp [h])]

theorem addNewKeys_lookup (target : Meta) (src : Meta) (acc : Meta)
    (k : String) :
    dictLookup (addNewKeys target acc src) k =
      (dictLookup acc k).or
        (if dictContains target k then none else dictLookup src k) := by
  induction src generalizing acc with
  | nil =>
    by_cases h : dictContains target k = true <;>
      simp [addNewKeys, h, dictLookup_nil]
  | cons kv rest ih =>
    have hstep : addNewKeys target acc (kv :: rest) =
        addNewKeys target
          (if dictContains target kv.1 || dictContains acc kv.1 then acc
            else acc ++ [kv]) rest := by
      simp [addNewKeys]
    rw [hstep, ih]
    by_cases hk : kv.1 = k
    · rw [dictLookup_cons_self kv rest k hk]
      by_cases ht : dictContains target k = true
      · rw [if_pos (by rw [hk, ht]; simp), if_pos ht, if_pos ht]
      · by_cases ha : dictContains acc k = true
        · rw [if_pos (by rw [hk]; simp [ha]), if_neg ht, if_neg ht]
          obtain ⟨v, hv⟩ := Option.isSome_iff_exists.mp
            ((dictContains_iff_isSome acc k).mp ha)
          rw [hv]
          simp
        · rw [if_neg (by rw [hk]; simp [ht, ha]), if_neg ht, if_neg ht]
          have hacc : dictLookup acc k = none := by
            cases hl : dictLookup acc k with
            | none => rfl
            | some v =>
              exact absurd ((dictContains_iff_isSome acc k).mpr
                (by rw [hl]; simp)) (by simp [ha])
          rw [dictLookup_append, hacc, dictLookup_cons_self kv [] k hk]
          simp

    · rw [dictLookup_cons_ne kv rest k hk]
      have hacc' : dictLookup
          (if dictContains target kv.1 || dictContains acc kv.1 then acc
            else acc ++ [kv]) k = dictLookup acc k := by
        by_cases hc : (dictContains target kv.1 || dictContains acc kv.1) = true
        · rw [if_pos hc]
        · rw [if_neg hc, dictLookup_append, dictLookup_cons_ne kv [] k hk]
          simp [dictLookup]
      rw [hacc']

theorem newKeys_foldl_lookup (target : Meta) (sources : List Meta) (acc : Meta)
    (k : String) :
    dictLookup (sources.foldl (addNewKeys target) acc) k =
      (dictLookup acc k).or
        (if dictContains target k then none
          else sources.findSome? (fun s => dictLookup s k)) := by
  induction sources generalizing acc with
  | nil =>
    by_cases h : dictContains target k = true <;> simp [h]
  | cons s rest ih =>
    rw [List.foldl_cons, ih, addNewKeys_lookup]
    by_cases ht : dictContains target k = true
    · simp [ht]
    · simp only [if_neg ht]
      rw [List.findSome?_cons]
      cases hs : dictLookup s k <;>
        cases ha : dictLookup acc k <;> simp

theorem mergeDict_lookup (sources : List Meta) (target : Meta) (k : String) :
    dictLookup (mergeDict sources target) k =
      (dictLookup target k).or
        (sources.findSome? (fun s => dictLookup s k)) := by
  unfold mergeDict newKeys
  rw [dictLookup_append, newKeys_foldl_lookup]
  by_cases ht : dictContains target k = true
  · obtain ⟨v, hv⟩ := Option.isSome_iff_exists.mp
      ((dictContains_iff_isSome target k).mp ht)
    rw [hv]
    simp [ht]
  · have hnone : dictLookup target k = none := by
      cases hl : dictLookup target k with
      | none => rfl
      | some v =>
        exact absurd ((dictContains_iff_isSome target k).mpr
          (by rw [hl]; simp)) (by simp [ht])
    rw [hnone]
    simp [ht, dictLookup_nil]

/-! ## Claim C5: metadata merge before deletion -/

/-- C5: (1) whenever `_on_delete` deletes anything — from disk or from the
store — the very first event of its run is the metadata merge over all
deletable candidates onto the kept path; and (2) the merge gives, for each
of the three namespaces and every key, the target's own value when present
(never overwritten), else the value of the first candidate carrying the key
(first-candidate-wins across sources), else nothing. -/
theorem c5_merge_before_delete_and_merge_semantics :
    (∀ (group : List FsFile) (selected : String) (confirmed : Bool),
        (∃ p, DeleteEvent.fsRemove p ∈ _on_delete group selected confirmed ∨
            DeleteEvent.dbDelete p ∈ _on_delete group selected confirmed) →
        (_on_delete group selected confirmed).head? =
          some (DeleteEvent.merged (toDelete group selected) selected)) ∧
      ∀ (sources : List FileMeta) (target : FileMeta) (k : String),
        dictLookup (merge_image_metadata sources target).exif k =
            (dictLookup target.exif k).or
              (sources.findSome? (fun s => dictLookup s.exif k)) ∧
          dictLookup (merge_image_metadata sources target).iptc k =
            (dictLookup target.iptc k).or
              (sources.findSome? (fun s => dictLookup s.iptc k)) ∧
          dictLookup (merge_image_metadata sources target).xmp k =
            (dictLookup target.xmp k).or
              (sources.findSome? (fun s => dictLookup s.xmp k)) := by
  constructor
  · intro group selected confirmed hdel
    simp only [_on_delete] at hdel ⊢
    generalize hfb : findBlocker group
        ((pixmapDims group selected).1 * (pixmapDims group selected).2)
        (toDelete group selected) = fb at hdel ⊢
    cases fb with
    | some f =>
      obtain ⟨p, hp⟩ := hdel
      rcases hp with hp | hp <;> simp at hp
    | none =>
      cases confirmed with
      | false =>
        obtain ⟨p, hp⟩ := hdel
        rcases hp with hp | hp <;> simp at hp
      | true => simp
  · intro sources target k
    refine ⟨?_, ?_, ?_⟩
    · show dictLookup (mergeDict (sources.map (·.exif)) target.exif) k = _
      rw [mergeDict_lookup]
      rw [List.findSome?_map]
      rfl
    · show dictLookup (mergeDict (sources.map (·.iptc)) target.iptc) k = _
      rw [mergeDict_lookup]
      rw [List.findSome?_map]
      rfl
    · show dictLookup (mergeDict (sources.map (·.xmp)) target.xmp) k = _
      rw [mergeDict_lookup]
      rw [List.findSome?_map]
      rfl

/-- C5 instantiated: a two-candidate group whose deletion proceeds (head
event is the merge), and a concrete three-source merge exercising
target-priority and first-candidate-wins. -/
theorem c5_merge_before_delete_witness :
    ((∃ p, DeleteEvent.fsRemove p ∈ _on_delete c1group ("big.jpg") true ∨
        DeleteEvent.dbDelete p ∈ _on_delete c1group ("big.jpg") true) ∧
      (_on_delete c1group ("big.jpg") true).head? =
        some (DeleteEvent.merged (toDelete c1group ("big.jpg")) ("big.jpg"))) ∧
      dictLookup (merge_image_metadata
          [⟨[(⟨"Date", "2020"⟩ : String × String)], [], []⟩,
            ⟨[(⟨"Date", "2021"⟩ : String × String)], [], []⟩]
          ⟨[(⟨"Make", "X"⟩ : String × String)], [], []⟩).exif ("Date") =
        (dictLookup [(⟨"Make", "X"⟩ : String × String)] ("Date")).or
          (List.findSome? (fun s => dictLookup s.exif ("Date"))
            [(⟨[(⟨"Date", "2020"⟩ : String × String)], [], []⟩ : FileMeta),
              ⟨[(⟨"Date", "2021"⟩ : String × String)], [], []⟩]) := by
  refine ⟨⟨⟨"keep.jpg", ?_⟩, ?_⟩, ?_⟩
  · exact Or.inl (by decide)
  · exact (c5_merge_before_delete_and_merge_semantics.1 c1group ("big.jpg") true
      ⟨"keep.jpg", Or.inl (by decide)⟩)
  · exact (c5_merge_before_delete_and_merge_semantics.2
      [⟨[(⟨"Date", "2020"⟩ : String × String)], [], []⟩,
        ⟨[(⟨"Date", "2021"⟩ : String × String)], [], []⟩]
      ⟨[(⟨"Make", "X"⟩ : String × String)], [], []⟩ "Date").1

/-! ## Generic list lemmas for C2 -/

theorem foldl_max_init_le (l : List Nat) : ∀ a, a ≤ l.foldl max a := by
  induction l with
  | nil => simp
  | cons y ys ih =>
    intro a
    exact le_trans (le_max_left a y) (ih (max a y))

theorem le_foldl_max (l : List Nat) (x : Nat) (hx : x ∈ l) :
    ∀ a, x ≤ l.foldl max a := by
  induction l with
  | nil => simp at hx
  | cons y ys ih =>
    intro a
    rcases List.mem_cons.mp hx with rfl | hx'
    · exact le_trans (le_max_right a x) (foldl_max_init_le ys (max a x))
    · exact ih hx' (max a y)

theorem foldl_max_le (l : List Nat) (m : Nat) (h : ∀ x ∈ l, x ≤ m) :
    ∀ a, a ≤ m → l.foldl max a ≤ m := by
  induction l with
  | nil => intro a ha; simpa using ha
  | cons y ys ih =>
    intro a ha
    simp only [List.foldl_cons]
    exact ih (fun x hx => h x (by simp [hx])) (max a y)
      (max_le ha (h y (by simp)))

theorem filter_eq_singleton_of_unique {α : Type} (p : α → Bool) (l : List α)
    (c : α) (hnd : l.Nodup) (hc : c ∈ l) (hpc : p c = true)
    (hothers : ∀ d ∈ l, d ≠ c → p d = false) : l.filter p = [c] := by
  induction l with
  | nil => simp at hc
  | cons a rest ih =>
    rw [List.nodup_cons] at hnd
    rcases List.mem_cons.mp hc with rfl | hc'
    · rw [List.filter_cons_of_pos hpc]
      have hrest : rest.filter p = [] := by
        rw [List.filter_eq_nil_iff]
        intro d hd
        simp [hothers d (by simp [hd]) (fun he => hnd.1 (he ▸ hd))]
      rw [hrest]
    · have hac : a ≠ c := fun he => hnd.1 (he ▸ hc')
      rw [List.filter_cons_of_neg (by simp [hothers a (by simp) hac])]
      exact ih hnd.2 hc' (fun d hd hdc => hothers d (by simp [hd]) hdc)

theorem two_mem_le_length {α : Type} {l : List α} {a b : α} (ha : a ∈ l)
    (hb : b ∈ l) (hab : a ≠ b) : 2 ≤ l.length := by
  match l with
  | [] => simp at ha
  | [x] =>
    simp at ha hb
    exact absurd (ha.trans hb.symm) hab
  | x :: y :: rest => simp

theorem filter_of_map (f : Candidate → String) (p : String → Bool)
    (l : List Candidate) :
    (l.map f).filter p = (l.filter (fun c => p (f c))).map f := by
  induction l with
  | nil => simp
  | cons c rest ih =>
    simp only [List.map_cons]
    by_cases h : p (f c) = true
    · rw [List.filter_cons_of_pos h,
        @List.filter_cons_of_pos _ (fun d => p (f d)) c rest (by simpa using h),
        List.map_cons, ih]
    · rw [List.filter_cons_of_neg (by simpa using h),
        @List.filter_cons_of_neg _ (fun d => p (f d)) c rest (by simpa using h),
        ih]

/-! ## Bridge lemmas between the scores dict and per-record scores -/

theorem pathKeys_eq (cs : List Candidate)
    (hnd : (cs.map Candidate.path).Nodup) :
    pathKeys cs = cs.map Candidate.path := by
  have gen : ∀ (l : List Candidate) (ks : List String),
      (∀ c ∈ l, c.path ∉ ks) → (l.map Candidate.path).Nodup →
      l.foldl (fun ks c => if c.path ∈ ks then ks else ks ++ [c.path]) ks =
        ks ++ l.map Candidate.path := by
    intro l
    induction l with
    | nil => simp
    | cons c rest ih =>
      intro ks hks hnd'
      simp only [List.map_cons, List.nodup_cons] at hnd'
      simp only [List.foldl_cons]
      rw [if_neg (hks c (by simp))]
      rw [ih (ks ++ [c.path]) ?hout ?hnodup]
      · simp
      case hout =>
        intro e he
        rw [List.mem_append]
        push_neg
        refine ⟨hks e (by simp [he]), ?_⟩
        simp only [List.mem_singleton]
        intro hep
        exact hnd'.1 (hep ▸ List.mem_map_of_mem Candidate.path he)
      case hnodup => exact hnd'.2
  exact gen cs [] (by simp) hnd

/-- The per-record total score the claim describes: one point per enabled
criterion for which the record is in that criterion's winning subset. -/
def recScore (older larger deeper : Bool) (cs : List Candidate)
    (c : Candidate) : Nat :=
  (if older && winOlder cs c then 1 else 0) +
    (if larger && winLarger cs c then 1 else 0) +
    (if deeper && winDeeper cs c then 1 else 0)

theorem critCount_eq (cs : List Candidate)
    (hnd : (cs.map Candidate.path).Nodup) (c : Candidate) (hc : c ∈ cs)
    (win : Candidate → Bool) :
    critCount cs win c.path = if win c then 1 else 0 := by
  have hinj : ∀ d ∈ cs, d ≠ c → d.path ≠ c.path := by
    intro d hd hdc hpath
    exact hdc (List.inj_on_of_nodup_map hnd hd hc hpath)
  unfold critCount
  by_cases hw : win c = true
  · rw [filter_eq_singleton_of_unique _ cs c (hnd.of_map) hc
      (by simp [hw]) ?hothers]
    · simp [hw]
    case hothers =>
      intro d hd hdc
      simp [hinj d hd hdc]
  · have : cs.filter (fun d => decide (d.path = c.path) && win d) = [] := by
      rw [List.filter_eq_nil_iff]
      intro d hd
      by_cases hdc : d = c
      · subst hdc
        simp [hw]
      · simp [hinj d hd hdc]
    rw [this]
    simp [hw]

theorem scoreOf_eq_recScore (older larger deeper : Bool) (cs : List Candidate)
    (hnd : (cs.map Candidate.path).Nodup) (c : Candidate) (hc : c ∈ cs) :
    scoreOf older larger deeper cs c.path = recScore older larger deeper cs c := by
  unfold scoreOf recScore
  rw [critCount_eq cs hnd c hc (winOlder cs),
    critCount_eq cs hnd c hc (winLarger cs),
    critCount_eq cs hnd c hc (winDeeper cs)]
  cases older <;> cases larger <;> cases deeper <;>
    cases hw1 : winOlder cs c <;> cases hw2 : winLarger cs c <;>
    cases hw3 : winDeeper cs c <;> simp

/-! ## Claim C2: auto-select semantics -/

/-- C2: for every non-empty duplicate group (whose records have pairwise
distinct paths, as the store guarantees) and every criteria subset of
{PreferOlder, PreferLarger, PreferDeeper}: an empty criteria set
auto-selects nothing; each record accrues one point per enabled criterion
whose winning subset contains it (PreferOlder: modification time within one
second — the implementation's `abs(mtime - min) < 1.0` test — of the group
minimum; PreferLarger: file size equal to the group maximum; PreferDeeper:
path-segment count equal to the group maximum); a record strictly above all
others in total score is selected; and if the maximum total is 0 or shared
by two records, nothing is selected. -/
theorem c2_auto_select_characterisation (older larger deeper : Bool)
    (cs : List Candidate) (hne : cs ≠ [])
    (hnd : (cs.map Candidate.path).Nodup) :
    ((older = false ∧ larger = false ∧ deeper = false) →
        _run_auto_select older larger deeper cs = none) ∧
      ((∀ c ∈ cs, recScore older larger deeper cs c = 0) →
        _run_auto_select older larger deeper cs = none) ∧
      (∀ c ∈ cs, 0 < recScore older larger deeper cs c →
        (∀ d ∈ cs, d ≠ c → recScore older larger deeper cs d <
          recScore older larger deeper cs c) →
        _run_auto_select older larger deeper cs = some c.path) ∧
      (∀ c ∈ cs, ∀ d ∈ cs, c ≠ d →
        recScore older larger deeper cs c = recScore older larger deeper cs d →
        (∀ e ∈ cs, recScore older larger deeper cs e ≤
          recScore older larger deeper cs c) →
        _run_auto_select older larger deeper cs = none) := by
  have hempty : ¬(cs.isEmpty = true) := fun h => hne (List.isEmpty_iff.mp h)
  have hkeys : pathKeys cs = cs.map Candidate.path := pathKeys_eq cs hnd
  have hmapscores : (pathKeys cs).map (scoreOf older larger deeper cs) =
      cs.map (recScore older larger deeper cs) := by
    rw [hkeys, List.map_map]
    exact List.map_congr_left
      (fun c hc => scoreOf_eq_recScore older larger deeper cs hnd c hc)
  refine ⟨?_, ?_, ?_, ?_⟩
  · rintro ⟨rfl, rfl, rfl⟩
    unfold _run_auto_select
    rw [if_neg hempty]
    simp
  · intro hz
    unfold _run_auto_select
    rw [if_neg hempty]
    by_cases hact : ((if older then 1 else 0) + (if larger then 1 else 0) +
        (if deeper then 1 else 0) : Nat) = 0
    · rw [if_pos hact]
    · rw [if_neg hact]
      have hM : ((pathKeys cs).map (scoreOf older larger deeper cs)).foldl
          max 0 = 0 := by
        rw [hmapscores]
        refine Nat.le_antisymm ?_ (Nat.zero_le _)
        refine foldl_max_le _ 0 ?_ 0 le_rfl
        intro x hx
        obtain ⟨c, hc, rfl⟩ := List.mem_map.mp hx
        exact le_of_eq (hz c hc)
      rw [if_pos hM]
  · intro c hc hpos hstrict
    have hact : ¬(((if older then 1 else 0) + (if larger then 1 else 0) +
        (if deeper then 1 else 0) : Nat) = 0) := by
      intro h0
      have hflags : older = false ∧ larger = false ∧ deeper = false := by
        cases older <;> cases larger <;> cases deeper <;> simp_all
      rcases hflags with ⟨rfl, rfl, rfl⟩
      simp [recScore] at hpos
    have hMeq : ((pathKeys cs).map (scoreOf older larger deeper cs)).foldl
        max 0 = recScore older larger deeper cs c := by
      rw [hmapscores]
      refine Nat.le_antisymm ?_
        (le_foldl_max _ _ (List.mem_map_of_mem _ hc) 0)
      refine foldl_max_le _ _ ?_ 0 (Nat.zero_le _)
      intro x hx
      obtain ⟨d, hd, rfl⟩ := List.mem_map.mp hx
      by_cases hdc : d = c
      · subst hdc; exact le_rfl
      · exact le_of_lt (hstrict d hd hdc)
    unfold _run_auto_select
    rw [if_neg hempty]
    rw [if_neg hact]
    simp only [hMeq]
    rw [if_neg (Nat.pos_iff_ne_zero.mp hpos)]
    rw [hkeys, filter_of_map]
    have hsingle : cs.filter (fun d =>
        decide (scoreOf older larger deeper cs d.path =
          recScore older larger deeper cs c)) = [c] := by
      refine filter_eq_singleton_of_unique _ cs c
        (List.Nodup.of_map Candidate.path hnd) hc ?_ ?_
      · simp [scoreOf_eq_recScore older larger deeper cs hnd c hc]
      · intro d hd hdc
        simp only [decide_eq_false_iff_not]
        rw [scoreOf_eq_recScore older larger deeper cs hnd d hd]
        exact Nat.ne_of_lt (hstrict d hd hdc)
    rw [hsingle]
    rfl
  · intro c hc d hd hcd heq hmax
    unfold _run_auto_select
    rw [if_neg hempty]
    by_cases hact : ((if older then 1 else 0) + (if larger then 1 else 0) +
        (if deeper then 1 else 0) : Nat) = 0
    · rw [if_pos hact]
    · rw [if_neg hact]
      have hMeq : ((pathKeys cs).map (scoreOf older larger deeper cs)).foldl
          max 0 = recScore older larger deeper cs c := by
        rw [hmapscores]
        refine Nat.le_antisymm ?_
          (le_foldl_max _ _ (List.mem_map_of_mem _ hc) 0)
        refine foldl_max_le _ _ ?_ 0 (Nat.zero_le _)
        intro x hx
        obtain ⟨e, he, rfl⟩ := List.mem_map.mp hx
        exact hmax e he
      by_cases hM0 : recScore older larger deeper cs c = 0
      · rw [if_pos (by rw [hMeq, hM0])]
      · rw [if_neg (by rw [hMeq]; exact hM0)]
        simp only [hMeq]
        rw [hkeys, filter_of_map]
        have hcin : c ∈ cs.filter (fun e =>
            decide (scoreOf older larger deeper cs e.path =
              recScore older larger deeper cs c)) :=
          List.mem_filter.mpr ⟨hc,
            by simp [scoreOf_eq_recScore older larger deeper cs hnd c hc]⟩
        have hdin : d ∈ cs.filter (fun e =>
            decide (scoreOf older larger deeper cs e.path =
              recScore older larger deeper cs c)) :=
          List.mem_filter.mpr ⟨hd,
            by simp [scoreOf_eq_recScore older larger deeper cs hnd d hd, heq]⟩
        have h2 : 2 ≤ ((cs.filter (fun e =>
            decide (scoreOf older larger deeper cs e.path =
              recScore older larger deeper cs c))).map Candidate.path).length := by
          rw [List.length_map]
          exact two_mem_le_length hcin hdin hcd
        cases hres : (cs.filter (fun e =>
            decide (scoreOf older larger deeper cs e.path =
              recScore older larger deeper cs c))).map Candidate.path with
        | nil => rfl
        | cons x tail =>
          cases tail with
          | nil => rw [hres] at h2; simp at h2
          | cons y t => rfl

/-- The concrete candidates of the C2 witness: the first is strictly older
and strictly larger than the second, at equal depth. -/
def c2cands : List Candidate :=
  [⟨"a/x.jpg", 0, 100, 2⟩, ⟨"b/y.jpg", 5, 50, 2⟩]

/-- C2 instantiated: with PreferOlder and PreferLarger enabled, the first
candidate of `c2cands` scores 2, the second 0, and the first is selected;
with no criteria enabled nothing is selected. -/
theorem c2_auto_select_witness :
    (c2cands ≠ [] ∧ (c2cands.map Candidate.path).Nodup) ∧
      (((false = false ∧ false = false ∧ false = false) →
          _run_auto_select false false false c2cands = none) ∧
        ((∀ c ∈ c2cands, recScore false false false c2cands c = 0) →
          _run_auto_select false false false c2cands = none) ∧
        (∀ c ∈ c2cands, 0 < recScore false false false c2cands c →
          (∀ d ∈ c2cands, d ≠ c → recScore false false false c2cands d <
            recScore false false false c2cands c) →
          _run_auto_select false false false c2cands = some c.path) ∧
        (∀ c ∈ c2cands, ∀ d ∈ c2cands, c ≠ d →
          recScore false false false c2cands c =
            recScore false false false c2cands d →
          (∀ e ∈ c2cands, recScore false false false c2cands e ≤
            recScore false false false c2cands c) →
          _run_auto_select false false false c2cands = none)) ∧
      _run_auto_select true true false c2cands = some ("a/x.jpg") :=
  ⟨⟨by decide, by decide⟩,
    c2_auto_select_characterisation false false false c2cands
      (by decide) (by decide),
    by
      have h := (c2_auto_select_characterisation true true false c2cands
        (by decide) (by decide)).2.2.1
      have h2 := h ⟨"a/x.jpg", 0, 100, 2⟩ (by decide) (by decide)
        (by decide)
      exact h2⟩

/-! ## firstKeys lemmas -/

theorem mem_foldl_insertKey (l : List String) :
    ∀ (ks : List String) (x : String),
      (x ∈ l.foldl (fun ks y => if y ∈ ks then ks else ks ++ [y]) ks ↔
        x ∈ ks ∨ x ∈ l) := by
  induction l with
  | nil => simp
  | cons y ys ih =>
    intro ks x
    simp only [List.foldl_cons]
    by_cases hy : y ∈ ks
    · rw [if_pos hy, ih]
      constructor
      · rintro (h | h)
        · exact Or.inl h
        · exact Or.inr (by simp [h])
      · rintro (h | h)
        · exact Or.inl h
        · rcases List.mem_cons.mp h with rfl | h'
          · exact Or.inl hy
          · exact Or.inr h'
    · rw [if_neg hy, ih]
      constructor
      · rintro (h | h)
        · rcases List.mem_append.mp h with h' | h'
          · exact Or.inl h'
          · exact Or.inr (by simpa using Or.inl (List.mem_singleton.mp h'))
        · exact Or.inr (by simp [h])
      · rintro (h | h)
        · exact Or.inl (List.mem_append.mpr (Or.inl h))
        · rcases List.mem_cons.mp h with rfl | h'
          · exact Or.inl (List.mem_append.mpr (Or.inr (by simp)))
          · exact Or.inr h'

theorem mem_firstKeys (l : List String) (x : String) :
    x ∈ firstKeys l ↔ x ∈ l := by
  unfold firstKeys
  rw [mem_foldl_insertKey]
  simp

theorem nodup_foldl_insertKey (l : List String) :
    ∀ ks : List String, ks.Nodup →
      (l.foldl (fun ks y => if y ∈ ks then ks else ks ++ [y]) ks).Nodup := by
  induction l with
  | nil => intro ks h; simpa using h
  | cons y ys ih =>
    intro ks hks
    simp only [List.foldl_cons]
    by_cases hy : y ∈ ks
    · rw [if_pos hy]
      exact ih ks hks
    · rw [if_neg hy]
      refine ih (ks ++ [y]) ?_
      rw [List.nodup_append]
      refine ⟨hks, List.nodup_singleton y, ?_⟩
      intro a ha hb
      simp only [List.mem_singleton] at hb
      exact hy (hb ▸ ha)

theorem nodup_firstKeys (l : List String) : (firstKeys l).Nodup :=
  nodup_foldl_insertKey l [] List.nodup_nil

/-! ## sortGroup lemmas -/

theorem sortGroup_perm (v : List ImageRecord) : List.Perm (sortGroup v) v :=
  List.perm_insertionSort scoreGe v

theorem mem_sortGroup (v : List ImageRecord) (r : ImageRecord) :
    r ∈ sortGroup v ↔ r ∈ v :=
  (sortGroup_perm v).mem_iff

theorem sortGroup_sorted (v : List ImageRecord) :
    List.Sorted scoreGe (sortGroup v) :=
  List.sorted_insertionSort scoreGe v

theorem length_sortGroup (v : List ImageRecord) :
    (sortGroup v).length = v.length :=
  (sortGroup_perm v).length_eq

/-! ## Claim C3: exact grouping characterisation -/

theorem mem_group_duplicates_by_sha256 (records : List ImageRecord)
    (g : List ImageRecord) :
    g ∈ group_duplicates_by_sha256 records ↔
      ∃ k, k ∈ firstKeys (records.map (·.sha256)) ∧
        1 < (records.filter (fun r => decide (r.sha256 = k))).length ∧
        g = sortGroup (records.filter (fun r => decide (r.sha256 = k))) := by
  unfold group_duplicates_by_sha256
  rw [(List.perm_insertionSort shaGroupLe _).mem_iff]
  unfold shaGroups
  rw [List.mem_filterMap]
  constructor
  · rintro ⟨k, hk, hfk⟩
    by_cases hlen : 1 < (records.filter (fun r => decide (r.sha256 = k))).length
    · rw [if_pos hlen] at hfk
      exact ⟨k, hk, hlen, (Option.some_inj.mp hfk).symm⟩
    · rw [if_neg hlen] at hfk
      simp at hfk
  · rintro ⟨k, hk, hlen, rfl⟩
    exact ⟨k, hk, by rw [if_pos hlen]⟩

theorem headSha_sortGroup_filter (records : List ImageRecord) (k : String)
    (h : 1 < (records.filter (fun r => decide (r.sha256 = k))).length) :
    headSha (sortGroup (records.filter (fun r => decide (r.sha256 = k)))) = k := by
  cases hs : sortGroup (records.filter (fun r => decide (r.sha256 = k))) with
  | nil =>
    have := length_sortGroup (records.filter (fun r => decide (r.sha256 = k)))
    rw [hs] at this
    simp at this
    omega
  | cons r tail =>
    have hr : r ∈ records.filter (fun r => decide (r.sha256 = k)) := by
      rw [← mem_sortGroup, hs]
      simp
    have := List.of_mem_filter hr
    simp only [headSha]
    simpa using this

/-- C3: `group_duplicates_by_sha256` partitions records by exact equality of
the content hash: every returned group has size ≥ 2 and is homogeneous in
`sha256`; two returned groups with the same hash are the same group; a
record lies in some returned group exactly when its hash is shared by ≥ 2
input records; and the output is sorted by (descending group size,
ascending hash value). -/
theorem c3_group_by_content_hash (records : List ImageRecord) :
    (∀ g ∈ group_duplicates_by_sha256 records, 2 ≤ g.length) ∧
      (∀ g ∈ group_duplicates_by_sha256 records,
        ∀ r ∈ g, ∀ s ∈ g, r.sha256 = s.sha256) ∧
      (∀ g ∈ group_duplicates_by_sha256 records,
        ∀ h ∈ group_duplicates_by_sha256 records,
        headSha g = headSha h → g = h) ∧
      (∀ r, r ∈ (group_duplicates_by_sha256 records).flatten ↔
        r ∈ records ∧
          2 ≤ (records.filter (fun s => decide (s.sha256 = r.sha256))).length) ∧
      List.Sorted shaGroupLe (group_duplicates_by_sha256 records) := by
  refine ⟨?_, ?_, ?_, ?_, ?_⟩
  · intro g hg
    obtain ⟨k, _, hlen, rfl⟩ := (mem_group_duplicates_by_sha256 records g).mp hg
    rw [length_sortGroup]
    omega
  · intro g hg r hr s hs
    obtain ⟨k, _, _, rfl⟩ := (mem_group_duplicates_by_sha256 records g).mp hg
    rw [mem_sortGroup] at hr hs
    have h1 := List.of_mem_filter hr
    have h2 := List.of_mem_filter hs
    simp at h1 h2
    rw [h1, h2]
  · intro g hg h hh hsha
    obtain ⟨k, _, hlen, rfl⟩ := (mem_group_duplicates_by_sha256 records g).mp hg
    obtain ⟨k', _, hlen', rfl⟩ := (mem_group_duplicates_by_sha256 records h).mp hh
    rw [headSha_sortGroup_filter records k hlen,
      headSha_sortGroup_filter records k' hlen'] at hsha
    rw [hsha]
  · intro r
    rw [List.mem_flatten]
    constructor
    · rintro ⟨g, hg, hrg⟩
      obtain ⟨k, _, hlen, rfl⟩ := (mem_group_duplicates_by_sha256 records g).mp hg
      rw [mem_sortGroup] at hrg
      have hmem := List.mem_of_mem_filter hrg
      have hsha := List.of_mem_filter hrg
      simp only [decide_eq_true_eq] at hsha
      refine ⟨hmem, ?_⟩
      rw [hsha]
      omega
    · rintro ⟨hmem, hlen⟩
      refine ⟨sortGroup (records.filter (fun s => decide (s.sha256 = r.sha256))),
        ?_, ?_⟩
      · rw [mem_group_duplicates_by_sha256]
        refine ⟨r.sha256, ?_, by omega, rfl⟩
        rw [mem_firstKeys]
        exact List.mem_map_of_mem (·.sha256) hmem
      · rw [mem_sortGroup]
        exact List.mem_filter.mpr ⟨hmem, by simp⟩
  · exact List.sorted_insertionSort shaGroupLe (shaGroups records)

/-- Concrete records of the C3 witness: two share a hash, one is alone. -/
def c3records : List ImageRecord :=
  [⟨"a.jpg", "h1", 3, 10, 10, 5, 0, 3, none, none, none⟩,
    ⟨"b.jpg", "h2", 5, 10, 10, 5, 0, 2, none, none, none⟩,
    ⟨"c.jpg", "h1", 3, 20, 20, 9, 0, 7, none, none, none⟩]

/-- C3 instantiated at `c3records`. -/
theorem c3_group_by_content_hash_witness :
    (∀ g ∈ group_duplicates_by_sha256 c3records, 2 ≤ g.length) ∧
      (∀ g ∈ group_duplicates_by_sha256 c3records,
        ∀ r ∈ g, ∀ s ∈ g, r.sha256 = s.sha256) ∧
      (∀ g ∈ group_duplicates_by_sha256 c3records,
        ∀ h ∈ group_duplicates_by_sha256 c3records,
        headSha g = headSha h → g = h) ∧
      (∀ r, r ∈ (group_duplicates_by_sha256 c3records).flatten ↔
        r ∈ c3records ∧
          2 ≤ (c3records.filter (fun s => decide (s.sha256 = r.sha256))).length) ∧
      List.Sorted shaGroupLe (group_duplicates_by_sha256 c3records) :=
  c3_group_by_content_hash c3records

/-! ## popCount and Hamming-distance lemmas -/

theorem popCountAux_eq_zero_iff :
    ∀ (fuel n : Nat), n ≤ fuel → (popCountAux fuel n = 0 ↔ n = 0) := by
  intro fuel
  induction fuel with
  | zero =>
    intro n hn
    have : n = 0 := Nat.le_zero.mp hn
    subst this
    simp [popCountAux]
  | succ fuel ih =>
    intro n hn
    by_cases h0 : n = 0
    · subst h0
      simp [popCountAux]
    · rw [show popCountAux (fuel + 1) n =
        n % 2 + popCountAux fuel (n / 2) from by simp [popCountAux, h0]]
      have hdiv : n / 2 ≤ fuel := by
        have hlt : n / 2 < n := Nat.div_lt_self (Nat.pos_of_ne_zero h0)
          Nat.one_lt_two
        omega
      rw [Nat.add_eq_zero]
      rw [ih (n / 2) hdiv]
      omega

theorem popCount_eq_zero_iff (n : Nat) : popCount n = 0 ↔ n = 0 :=
  popCountAux_eq_zero_iff n n le_rfl

theorem hamming_le_zero_iff (a b : Nat) :
    hamming_distance_hex_phash a b ≤ 0 ↔ a = b := by
  rw [Nat.le_zero]
  unfold hamming_distance_hex_phash
  rw [popCount_eq_zero_iff]
  exact Nat.xor_eq_zero

theorem hamming_self (a : Nat) : hamming_distance_hex_phash a a = 0 := by
  unfold hamming_distance_hex_phash
  rw [Nat.xor_self]
  rfl

/-! ## phashLoop structure lemmas -/

theorem phashLoop_cons (t fuel : Nat) (r : ImageRecord)
    (rs : List ImageRecord) :
    phashLoop t (fuel + 1) (r :: rs) =
      (if 1 < ((r :: rs).getLast (List.cons_ne_nil r rs) ::
          (r :: rs).dropLast.filter
            (phashNear t ((r :: rs).getLast (List.cons_ne_nil r rs)))).length
        then [sortGroup ((r :: rs).getLast (List.cons_ne_nil r rs) ::
          (r :: rs).dropLast.filter
            (phashNear t ((r :: rs).getLast (List.cons_ne_nil r rs))))]
        else []) ++
        phashLoop t fuel ((r :: rs).dropLast.filter
          (fun x => !(phashNear t ((r :: rs).getLast (List.cons_ne_nil r rs)) x))) :=
  rfl

theorem mem_of_mem_dropLast {α : Type} {l : List α} {x : α}
    (hx : x ∈ l.dropLast) : x ∈ l := by
  cases hl : l with
  | nil => subst hl; simp at hx
  | cons a as =>
    subst hl
    have hne : a :: as ≠ [] := List.cons_ne_nil a as
    rw [← List.dropLast_append_getLast hne]
    exact List.mem_append.mpr (Or.inl hx)

theorem keep_length_bound (t fuel : Nat) (r : ImageRecord)
    (rs : List ImageRecord) (hlen : (r :: rs).length ≤ fuel + 1) :
    ((r :: rs).dropLast.filter
      (fun x => !(phashNear t ((r :: rs).getLast (List.cons_ne_nil r rs)) x))).length ≤
      fuel := by
  have h1 := List.length_filter_le
    (fun x => !(phashNear t ((r :: rs).getLast (List.cons_ne_nil r rs)) x))
    (r :: rs).dropLast
  have h2 : (r :: rs).dropLast.length = rs.length := by
    rw [List.length_dropLast]
    simp
  have hlen' : rs.length + 1 ≤ fuel + 1 := by simpa using hlen
  omega

theorem phashLoop_mem_structure (t : Nat) :
    ∀ (fuel : Nat) (L : List ImageRecord), L.length ≤ fuel →
      ∀ g ∈ phashLoop t fuel L,
        ∃ cluster, g = sortGroup cluster ∧ 1 < cluster.length ∧
          (∃ s ∈ cluster, ∀ r ∈ cluster,
            hamming_distance_hex_phash s.phash r.phash ≤ t) ∧
          ∀ r ∈ cluster, r ∈ L := by
  intro fuel
  induction fuel with
  | zero =>
    intro L hlen g hg
    have : L = [] := List.length_eq_zero.mp (Nat.le_zero.mp hlen)
    subst this
    simp [phashLoop] at hg
  | succ fuel ih =>
    intro L hlen g hg
    cases L with
    | nil => simp [phashLoop] at hg
    | cons r rs =>
      rw [phashLoop_cons] at hg
      rcases List.mem_append.mp hg with hg1 | hg2
      · by_cases hc : 1 < ((r :: rs).getLast (List.cons_ne_nil r rs) ::
            (r :: rs).dropLast.filter
              (phashNear t ((r :: rs).getLast (List.cons_ne_nil r rs)))).length
        · rw [if_pos hc] at hg1
          rw [List.mem_singleton] at hg1
          refine ⟨_, hg1, hc, ⟨(r :: rs).getLast (List.cons_ne_nil r rs),
            by simp, ?_⟩, ?_⟩
          · intro x hx
            rcases List.mem_cons.mp hx with rfl | hx'
            · rw [hamming_self]
              exact Nat.zero_le t
            · have := List.of_mem_filter hx'
              unfold phashNear at this
              simpa using this
          · intro x hx
            rcases List.mem_cons.mp hx with rfl | hx'
            · exact List.getLast_mem (List.cons_ne_nil r rs)
            · exact mem_of_mem_dropLast (List.mem_of_mem_filter hx')
        · rw [if_neg hc] at hg1
          simp at hg1
      · obtain ⟨cluster, hgc, hclen, hseed, hsub⟩ :=
          ih _ (keep_length_bound t fuel r rs hlen) g hg2
        refine ⟨cluster, hgc, hclen, hseed, ?_⟩
        intro x hx
        exact mem_of_mem_dropLast (List.mem_of_mem_filter (hsub x hx))

theorem phashLoop_flatten_count (t : Nat) :
    ∀ (fuel : Nat) (L : List ImageRecord), L.length ≤ fuel →
      ∀ x : ImageRecord,
        ((phashLoop t fuel L).flatten).count x ≤ L.count x := by
  intro fuel
  induction fuel with
  | zero =>
    intro L hlen x
    have : L = [] := List.length_eq_zero.mp (Nat.le_zero.mp hlen)
    subst this
    simp [phashLoop]
  | succ fuel ih =>
    intro L hlen x
    cases L with
    | nil => simp [phashLoop]
    | cons r rs =>
      rw [phashLoop_cons, List.flatten_append, List.count_append]
      have hperm : List.Perm
          (((r :: rs).dropLast.filter
              (phashNear t ((r :: rs).getLast (List.cons_ne_nil r rs)))) ++
            ((r :: rs).dropLast.filter
              (fun y => !(phashNear t ((r :: rs).getLast (List.cons_ne_nil r rs)) y))))
          (r :: rs).dropLast :=
        List.filter_append_perm _ (r :: rs).dropLast
      have hcnt : ((r :: rs).dropLast.filter
            (phashNear t ((r :: rs).getLast (List.cons_ne_nil r rs)))).count x +
          ((r :: rs).dropLast.filter
            (fun y => !(phashNear t ((r :: rs).getLast (List.cons_ne_nil r rs)) y))).count x =
          (r :: rs).dropLast.count x := by
        have := hperm.count_eq x
        rw [List.count_append] at this
        exact this
      have hL : (r :: rs).dropLast ++ [(r :: rs).getLast (List.cons_ne_nil r rs)] =
          r :: rs := List.dropLast_append_getLast (List.cons_ne_nil r rs)
      have hLcnt : (r :: rs).count x = (r :: rs).dropLast.count x +
          ([(r :: rs).getLast (List.cons_ne_nil r rs)]).count x := by
        conv_lhs => rw [← hL]
        rw [List.count_append]
      have hrest := ih _ (keep_length_bound t fuel r rs hlen) x
      by_cases hc : 1 < ((r :: rs).getLast (List.cons_ne_nil r rs) ::
          (r :: rs).dropLast.filter
            (phashNear t ((r :: rs).getLast (List.cons_ne_nil r rs)))).length
      · rw [if_pos hc]
        have hfl : ([sortGroup ((r :: rs).getLast (List.cons_ne_nil r rs) ::
            (r :: rs).dropLast.filter
              (phashNear t ((r :: rs).getLast (List.cons_ne_nil r rs))))]).flatten =
            sortGroup ((r :: rs).getLast (List.cons_ne_nil r rs) ::
              (r :: rs).dropLast.filter
                (phashNear t ((r :: rs).getLast (List.cons_ne_nil r rs)))) := by
          simp
        rw [hfl, (sortGroup_perm _).count_eq, List.count_cons]
        simp only [List.count_singleton] at hLcnt
        omega
      · rw [if_neg hc]
        simp only [List.flatten_nil, List.count_nil]
        simp only [List.count_singleton] at hLcnt
        omega

theorem sorted_head_max (g : List ImageRecord)
    (h : List.Sorted scoreGe g) : ∀ r ∈ g, r.score ≤ headScore g := by
  cases g with
  | nil => simp
  | cons a tail =>
    intro r hr
    rcases List.mem_cons.mp hr with rfl | hr'
    · simp [headScore]
    · exact List.rel_of_sorted_cons h r hr'

/-! ## Claim C4: greedy perceptual clustering -/

/-- C4: `group_duplicates_by_phash` performs greedy single-link seed
clustering: every returned cluster has ≥ 2 members, contains a seed whose
Hamming distance to every member is ≤ the threshold (distance to the seed
only — membership is never transitive within a cluster), uses each input
record at most once, is internally sorted with its best (head) member's
score maximal, and the cluster list is sorted by (descending size,
descending best-member quality score). -/
theorem c4_group_by_phash_greedy (records : List ImageRecord)
    (threshold : Nat) :
    (∀ g ∈ group_duplicates_by_phash records threshold, 2 ≤ g.length) ∧
      (∀ g ∈ group_duplicates_by_phash records threshold,
        ∃ s ∈ g, ∀ r ∈ g,
          hamming_distance_hex_phash s.phash r.phash ≤ threshold) ∧
      (∀ x : ImageRecord,
        ((group_duplicates_by_phash records threshold).flatten).count x ≤
          records.count x) ∧
      List.Sorted sizeScoreGroupLe (group_duplicates_by_phash records threshold) ∧
      (∀ g ∈ group_duplicates_by_phash records threshold,
        ∀ r ∈ g, r.score ≤ headScore g) := by
  have hmem : ∀ g, g ∈ group_duplicates_by_phash records threshold ↔
      g ∈ phashLoop threshold records.length records := fun g => by
    unfold group_duplicates_by_phash
    exact (List.perm_insertionSort sizeScoreGroupLe _).mem_iff
  refine ⟨?_, ?_, ?_, ?_, ?_⟩
  · intro g hg
    obtain ⟨cluster, rfl, hlen, _, _⟩ :=
      phashLoop_mem_structure threshold records.length records le_rfl g
        ((hmem g).mp hg)
    rw [length_sortGroup]
    omega
  · intro g hg
    obtain ⟨cluster, rfl, _, ⟨s, hs, hdist⟩, _⟩ :=
      phashLoop_mem_structure threshold records.length records le_rfl g
        ((hmem g).mp hg)
    refine ⟨s, (mem_sortGroup cluster s).mpr hs, ?_⟩
    intro r hr
    exact hdist r ((mem_sortGroup cluster r).mp hr)
  · intro x
    have hperm : List.Perm (group_duplicates_by_phash records threshold)
        (phashLoop threshold records.length records) := by
      unfold group_duplicates_by_phash
      exact List.perm_insertionSort sizeScoreGroupLe _
    have hflat := hperm.flatten
    rw [hflat.count_eq]
    exact phashLoop_flatten_count threshold records.length records le_rfl x
  · exact List.sorted_insertionSort sizeScoreGroupLe _
  · intro g hg
    obtain ⟨cluster, rfl, _, _, _⟩ :=
      phashLoop_mem_structure threshold records.length records le_rfl g
        ((hmem g).mp hg)
    exact sorted_head_max _ (sortGroup_sorted cluster)

/-- Concrete records of the C4 witness: two perceptually close records and
one far one. -/
def c4records : List ImageRecord :=
  [⟨"a.jpg", "h1", 0, 10, 10, 5, 0, 3, none, none, none⟩,
    ⟨"b.jpg", "h2", 1, 10, 10, 5, 0, 2, none, none, none⟩,
    ⟨"c.jpg", "h3", 255, 10, 10, 5, 0, 1, none, none, none⟩]

/-- C4 instantiated at `c4records` with threshold 1, together with the
concrete value the clustering computes there. -/
theorem c4_group_by_phash_greedy_witness :
    ((∀ g ∈ group_duplicates_by_phash c4records 1, 2 ≤ g.length) ∧
      (∀ g ∈ group_duplicates_by_phash c4records 1,
        ∃ s ∈ g, ∀ r ∈ g, hamming_distance_hex_phash s.phash r.phash ≤ 1) ∧
      (∀ x : ImageRecord,
        ((group_duplicates_by_phash c4records 1).flatten).count x ≤
          c4records.count x) ∧
      List.Sorted sizeScoreGroupLe (group_duplicates_by_phash c4records 1) ∧
      (∀ g ∈ group_duplicates_by_phash c4records 1,
        ∀ r ∈ g, r.score ≤ headScore g)) ∧
      group_duplicates_by_phash c4records 1 =
        [[⟨"a.jpg", "h1", 0, 10, 10, 5, 0, 3, none, none, none⟩,
          ⟨"b.jpg", "h2", 1, 10, 10, 5, 0, 2, none, none, none⟩]] :=
  ⟨c4_group_by_phash_greedy c4records 1, by decide⟩

/-! ## embLoop structure lemma -/

theorem embLoop_mem_is_sortGroup (t : ℚ) :
    ∀ (fuel : Nat) (L : List ImageRecord), ∀ g ∈ embLoop t fuel L,
      ∃ v, g = sortGroup v := by
  intro fuel
  induction fuel with
  | zero =>
    intro L g hg
    cases L <;> simp [embLoop] at hg
  | succ fuel ih =>
    intro L g hg
    cases L with
    | nil => simp [embLoop] at hg
    | cons x xs =>
      have heq : embLoop t (fuel + 1) (x :: xs) =
          (if 1 < (x :: xs.filter (embNear t x)).length
            then [sortGroup (x :: xs.filter (embNear t x))] else []) ++
            embLoop t fuel (xs.filter (fun r => !(embNear t x r))) := rfl
      rw [heq] at hg
      rcases List.mem_append.mp hg with hg1 | hg2
      · by_cases hc : 1 < (x :: xs.filter (embNear t x)).length
        · rw [if_pos hc] at hg1
          rw [List.mem_singleton] at hg1
          exact ⟨_, hg1⟩
        · rw [if_neg hc] at hg1
          simp at hg1
      · exact ih _ g hg2

/-! ## Claim C7 (corrected): internal group ordering -/

/-- First record of the C7 counterexample: the path-lexicographically larger
record appears first in the input. -/
def c7rb : ImageRecord := ⟨"b.jpg", "h", 0, 10, 10, 5, 0, 3, none, none, none⟩

/-- Second record of the C7 counterexample, equal in score to `c7rb` but
with a path-lexicographically smaller path. -/
def c7ra : ImageRecord := ⟨"a.jpg", "h", 0, 10, 10, 5, 0, 3, none, none, none⟩

/-- C7 counterexample: two records with the same hash and equal scores come
back from `group_duplicates_by_sha256` in their input order (the sort is
stable), so the group is NOT ordered by ascending path on the tie — the
claimed tie-break relation fails on the returned group. -/
theorem c7_path_tiebreak_counterexample :
    group_duplicates_by_sha256 [c7rb, c7ra] = [[c7rb, c7ra]] ∧
      c7rb.score = c7ra.score ∧
      ¬ List.Sorted (fun a b : ImageRecord => b.score < a.score ∨
        (a.score = b.score ∧ a.path.data ≤ b.path.data)) [c7rb, c7ra] :=
  ⟨by decide, by decide, by decide⟩

/-- C7 amended: every group returned by any of the three grouping functions
is internally sorted by non-increasing quality score; equal-score ties are
left in the stable sort's encounter order and are NOT re-ordered by path
(the counterexample shows a tie in input order with paths descending). -/
theorem c7_internal_descending_score (records : List ImageRecord) (tn : Nat)
    (tq : ℚ) (g : List ImageRecord)
    (hg : g ∈ group_duplicates_by_sha256 records ∨
      g ∈ group_duplicates_by_phash records tn ∨
      g ∈ group_duplicates_by_embedding records tq) :
    List.Sorted scoreGe g := by
  rcases hg with h | h | h
  · obtain ⟨k, _, _, rfl⟩ := (mem_group_duplicates_by_sha256 records g).mp h
    exact sortGroup_sorted _
  · unfold group_duplicates_by_phash at h
    rw [(List.perm_insertionSort sizeScoreGroupLe _).mem_iff] at h
    obtain ⟨cluster, rfl, _, _, _⟩ :=
      phashLoop_mem_structure tn records.length records le_rfl g h
    exact sortGroup_sorted _
  · unfold group_duplicates_by_embedding at h
    rw [(List.perm_insertionSort sizeScoreGroupLe _).mem_iff] at h
    obtain ⟨v, rfl⟩ := embLoop_mem_is_sortGroup tq _ _ g h
    exact sortGroup_sorted _

/-- C7 amended, instantiated: the sha-duplicate group of `c3records` is
sorted by non-increasing score. -/
theorem c7_internal_descending_score_witness :
    ([⟨"c.jpg", "h1", 3, 20, 20, 9, 0, 7, none, none, none⟩,
        ⟨"a.jpg", "h1", 3, 10, 10, 5, 0, 3, none, none, none⟩] ∈
          group_duplicates_by_sha256 c3records ∨
      [⟨"c.jpg", "h1", 3, 20, 20, 9, 0, 7, none, none, none⟩,
        ⟨"a.jpg", "h1", 3, 10, 10, 5, 0, 3, none, none, none⟩] ∈
          group_duplicates_by_phash c3records 0 ∨
      [⟨"c.jpg", "h1", 3, 20, 20, 9, 0, 7, none, none, none⟩,
        ⟨"a.jpg", "h1", 3, 10, 10, 5, 0, 3, none, none, none⟩] ∈
          group_duplicates_by_embedding c3records 0) ∧
      List.Sorted scoreGe
        [⟨"c.jpg", "h1", 3, 20, 20, 9, 0, 7, none, none, none⟩,
          ⟨"a.jpg", "h1", 3, 10, 10, 5, 0, 3, none, none, none⟩] :=
  ⟨Or.inl (by decide),
    c7_internal_descending_score c3records 0 0 _ (Or.inl (by decide))⟩

/-! ## Claim C8: threshold-0 perceptual grouping vs exact grouping -/

theorem phashLoop_zero_classes :
    ∀ (fuel : Nat) (L : List ImageRecord), L.length ≤ fuel →
      (∀ r ∈ L, ∀ s ∈ L, (r.sha256 = s.sha256 ↔ r.phash = s.phash)) →
      (∀ g ∈ phashLoop 0 fuel L, ∃ k,
          List.Perm g (L.filter (fun r => decide (r.sha256 = k))) ∧
          1 < (L.filter (fun r => decide (r.sha256 = k))).length ∧
          ∃ r ∈ L, r.sha256 = k) ∧
      (∀ k, (∃ r ∈ L, r.sha256 = k) →
          1 < (L.filter (fun r => decide (r.sha256 = k))).length →
          ∃ g ∈ phashLoop 0 fuel L,
            List.Perm g (L.filter (fun r => decide (r.sha256 = k)))) := by
  intro fuel
  induction fuel with
  | zero =>
    intro L hlen hinj
    have : L = [] := List.length_eq_zero.mp (Nat.le_zero.mp hlen)
    subst this
    constructor
    · intro g hg
      simp [phashLoop] at hg
    · rintro k ⟨r, hr, _⟩ _
      simp at hr
  | succ fuel ih =>
    intro L hlen hinj
    cases L with
    | nil =>
      constructor
      · intro g hg
        simp [phashLoop] at hg
      · rintro k ⟨r, hr, _⟩ _
        simp at hr
    | cons r rs =>
      set seed := (r :: rs).getLast (List.cons_ne_nil r rs) with hseeddef
      set front := (r :: rs).dropLast with hfrontdef
      have hsplit : front ++ [seed] = r :: rs :=
        List.dropLast_append_getLast (List.cons_ne_nil r rs)
      have hseedmem : seed ∈ r :: rs := List.getLast_mem (List.cons_ne_nil r rs)
      have hfrontsub : ∀ x ∈ front, x ∈ r :: rs := by
        intro x hx
        rw [← hsplit]
        exact List.mem_append.mpr (Or.inl hx)
      have hnearBool : ∀ x ∈ front,
          phashNear 0 seed x = decide (x.sha256 = seed.sha256) := by
        intro x hx
        unfold phashNear
        rw [decide_eq_decide]
        rw [hamming_le_zero_iff]
        constructor
        · intro hph
          exact (hinj x (hfrontsub x hx) seed hseedmem).mpr hph.symm
        · intro hsha
          exact ((hinj x (hfrontsub x hx) seed hseedmem).mp hsha).symm
      have hC : front.filter (phashNear 0 seed) =
          front.filter (fun x => decide (x.sha256 = seed.sha256)) :=
        List.filter_congr hnearBool
      have hD : front.filter (fun x => !(phashNear 0 seed x)) =
          front.filter (fun x => !(decide (x.sha256 = seed.sha256))) :=
        List.filter_congr (fun x hx => by rw [hnearBool x hx])
      have hFk : ∀ k : String,
          (r :: rs).filter (fun x => decide (x.sha256 = k)) =
            front.filter (fun x => decide (x.sha256 = k)) ++
              (if seed.sha256 = k then [seed] else []) := by
        intro k
        conv_lhs => rw [← hsplit]
        rw [List.filter_append, List.filter_singleton]
        by_cases h : seed.sha256 = k <;> simp [h]
      have hG : List.Perm
          (seed :: front.filter (fun x => decide (x.sha256 = seed.sha256)))
          ((r :: rs).filter (fun x => decide (x.sha256 = seed.sha256))) := by
        rw [hFk seed.sha256, if_pos rfl]
        exact (List.perm_append_singleton seed _).symm
      have hH : ∀ k, k ≠ seed.sha256 →
          (front.filter (fun x => !(decide (x.sha256 = seed.sha256)))).filter
              (fun x => decide (x.sha256 = k)) =
            (r :: rs).filter (fun x => decide (x.sha256 = k)) := by
        intro k hk
        rw [List.filter_filter]
        rw [hFk k, if_neg (fun h => hk h.symm), List.append_nil]
        refine List.filter_congr ?_
        intro x hx
        by_cases hxk : x.sha256 = k
        · have hxs : ¬(x.sha256 = seed.sha256) := fun h =>
            hk (by rw [← hxk, h])
          simp [hxk, hxs, hk]
        · simp [hxk]
      have hkeeplen :
          (front.filter (fun x => !(decide (x.sha256 = seed.sha256)))).length ≤
            fuel := by
        have h1 := List.length_filter_le
          (fun x => !(decide (x.sha256 = seed.sha256))) front
        have h2 : front.length = rs.length := by
          rw [hfrontdef, List.length_dropLast]
          simp
        have h3 : rs.length + 1 ≤ fuel + 1 := by simpa using hlen
        omega
      have hinjkeep : ∀ x ∈ front.filter
            (fun x => !(decide (x.sha256 = seed.sha256))),
          ∀ y ∈ front.filter (fun x => !(decide (x.sha256 = seed.sha256))),
          (x.sha256 = y.sha256 ↔ x.phash = y.phash) := by
        intro x hx y hy
        exact hinj x (hfrontsub x (List.mem_of_mem_filter hx))
          y (hfrontsub y (List.mem_of_mem_filter hy))
      have hloopeq : phashLoop 0 (fuel + 1) (r :: rs) =
          (if 1 < (seed :: front.filter
              (fun x => decide (x.sha256 = seed.sha256))).length
            then [sortGroup (seed :: front.filter
              (fun x => decide (x.sha256 = seed.sha256)))]
            else []) ++
            phashLoop 0 fuel (front.filter
              (fun x => !(decide (x.sha256 = seed.sha256)))) := by
        rw [phashLoop_cons]
        rw [← hseeddef, ← hfrontdef, hC, hD]
      obtain ⟨ihfwd, ihbwd⟩ := ih
        (front.filter (fun x => !(decide (x.sha256 = seed.sha256))))
        hkeeplen hinjkeep
      constructor
      · intro g hg
        rw [hloopeq] at hg
        rcases List.mem_append.mp hg with hg1 | hg2
        · by_cases hc : 1 < (seed :: front.filter
              (fun x => decide (x.sha256 = seed.sha256))).length
          · rw [if_pos hc] at hg1
            rw [List.mem_singleton] at hg1
            subst hg1
            refine ⟨seed.sha256, ?_, ?_, seed, hseedmem, rfl⟩
            · exact (sortGroup_perm _).trans hG
            · rw [← hG.length_eq]
              exact hc
          · rw [if_neg hc] at hg1
            simp at hg1
        · obtain ⟨k, hperm, hklen, r', hr'mem, hr'sha⟩ := ihfwd g hg2
          have hr'ne : ¬(r'.sha256 = seed.sha256) := by
            have := List.of_mem_filter hr'mem
            simpa using this
          have hkne : k ≠ seed.sha256 := hr'sha ▸ hr'ne
          rw [hH k hkne] at hperm hklen
          exact ⟨k, hperm, hklen,
            r', hfrontsub r' (List.mem_of_mem_filter hr'mem), hr'sha⟩
      · rintro k ⟨r0, hr0, hr0sha⟩ hklen
        by_cases hks : k = seed.sha256
        · subst hks
          have hc : 1 < (seed :: front.filter
              (fun x => decide (x.sha256 = seed.sha256))).length := by
            rw [hG.length_eq]
            exact hklen
          refine ⟨sortGroup (seed :: front.filter
            (fun x => decide (x.sha256 = seed.sha256))), ?_, ?_⟩
          · rw [hloopeq]
            refine List.mem_append.mpr (Or.inl ?_)
            rw [if_pos hc]
            simp
          · exact (sortGroup_perm _).trans hG
        · have hr0front : r0 ∈ front := by
            rw [← hsplit] at hr0
            rcases List.mem_append.mp hr0 with h | h
            · exact h
            · rw [List.mem_singleton] at h
              exact absurd (hr0sha.symm.trans
                (congrArg ImageRecord.sha256 h)) hks
          have hr0keep : r0 ∈ front.filter
              (fun x => !(decide (x.sha256 = seed.sha256))) := by
            refine List.mem_filter.mpr ⟨hr0front, ?_⟩
            simp only [Bool.not_eq_true']
            simp only [decide_eq_false_iff_not]
            exact fun h => hks (hr0sha ▸ h)
          obtain ⟨g, hgmem, hgperm⟩ := ihbwd k ⟨r0, hr0keep, hr0sha⟩
            (by rw [hH k hks]; exact hklen)
          rw [hH k hks] at hgperm
          refine ⟨g, ?_, hgperm⟩
          rw [hloopeq]
          exact List.mem_append.mpr (Or.inr hgmem)

/-- C8: whenever perceptual hashes are injective over distinct content on
the input (two records' hashes agree exactly when their content hashes do),
`group_duplicates_by_phash` at threshold 0 returns the same partition of
records as `group_duplicates_by_sha256`: every perceptual group is a
permutation of some exact group and vice versa. -/
theorem c8_phash_zero_same_partition_as_sha256 (records : List ImageRecord)
    (hinj : ∀ r ∈ records, ∀ s ∈ records,
      (r.sha256 = s.sha256 ↔ r.phash = s.phash)) :
    (∀ g ∈ group_duplicates_by_phash records 0,
        ∃ h ∈ group_duplicates_by_sha256 records, List.Perm g h) ∧
      ∀ h ∈ group_duplicates_by_sha256 records,
        ∃ g ∈ group_duplicates_by_phash records 0, List.Perm g h := by
  obtain ⟨hfwd, hbwd⟩ :=
    phashLoop_zero_classes records.length records le_rfl hinj
  have hmemP : ∀ g, g ∈ group_duplicates_by_phash records 0 ↔
      g ∈ phashLoop 0 records.length records := fun g => by
    unfold group_duplicates_by_phash
    exact (List.perm_insertionSort sizeScoreGroupLe _).mem_iff
  constructor
  · intro g hg
    obtain ⟨k, hperm, hklen, r, hr, hrsha⟩ := hfwd g ((hmemP g).mp hg)
    refine ⟨sortGroup (records.filter (fun s => decide (s.sha256 = k))),
      ?_, ?_⟩
    · rw [mem_group_duplicates_by_sha256]
      refine ⟨k, ?_, hklen, rfl⟩
      rw [mem_firstKeys]
      exact hrsha ▸ List.mem_map_of_mem (·.sha256) hr
    · exact hperm.trans (sortGroup_perm _).symm
  · intro h hh
    obtain ⟨k, hk, hklen, rfl⟩ :=
      (mem_group_duplicates_by_sha256 records h).mp hh
    rw [mem_firstKeys] at hk
    obtain ⟨r, hr, hrsha⟩ := List.mem_map.mp hk
    obtain ⟨g, hgmem, hgperm⟩ := hbwd k ⟨r, hr, hrsha⟩ hklen
    exact ⟨g, (hmemP g).mpr hgmem, hgperm.trans (sortGroup_perm _).symm⟩

/-- Concrete records of the C8 witness: hashes injective over content, one
duplicate pair and one loner. -/
def c8records : List ImageRecord :=
  [⟨"a.jpg", "h1", 7, 10, 10, 5, 0, 3, none, none, none⟩,
    ⟨"b.jpg", "h2", 9, 10, 10, 5, 0, 2, none, none, none⟩,
    ⟨"c.jpg", "h1", 7, 20, 20, 9, 0, 7, none, none, none⟩]

/-- C8 instantiated at `c8records`. -/
theorem c8_phash_zero_same_partition_witness :
    (∀ r ∈ c8records, ∀ s ∈ c8records,
        (r.sha256 = s.sha256 ↔ r.phash = s.phash)) ∧
      (∀ g ∈ group_duplicates_by_phash c8records 0,
          ∃ h ∈ group_duplicates_by_sha256 c8records, List.Perm g h) ∧
      ∀ h ∈ group_duplicates_by_sha256 c8records,
        ∃ g ∈ group_duplicates_by_phash c8records 0, List.Perm g h :=
  ⟨by decide, c8_phash_zero_same_partition_as_sha256 c8records (by decide)⟩

end PhotoScanner
